import Mathlib

/-
Verification of the edge-list ordering program (src/main.py).

The program reconstructs a traversal order from an unordered list of
undirected edges over integer vertices.  It consists of three functions:
`get_valid_starting_vertex` (degree-based topology validation and
starting-vertex resolution), `get_first_edge` (orients the first edge), and
`get_ordered_edges` (greedy chain construction).

Python-specific behaviour is embedded explicitly:
* assertion failures, `IndexError` (`vertices[0]` on an empty list, tuple
  indexing out of range), `ValueError` (`list.remove` on a missing value) and
  the `TypeError` from `frozenset(None)` are modelled as constructors of the
  error type `Err`, and fallible functions return `Except Err _`;
* `list(set(xs))` for CPython integer elements: `hash(n) = n` for the small
  non-negative ints appearing here, so each element of the hash table of size
  `2^k ≥ 8` occupies the slot equal to its value and the table scan yields the
  distinct elements in ascending numeric order.  `pySetList` embeds exactly
  that order (sorted distinct values), which is CPython's behaviour whenever
  the distinct values are non-negative and below the table size, as in every
  input considered here.  Note this is not first-appearance order;
* `frozenset(edge)` is embedded as the canonical (deduplicated, ascending)
  list of the edge's endpoints, so list-equality of canonical forms coincides
  with Python's set equality, and `tuple(edge_set)` is the canonical list
  itself (CPython iterates a small-int frozenset in the same ascending order);
* Python tuples arising in `sorted_edges` (input 2-tuples, the `(None, None)`
  padding, and the 1-tuple produced by `tuple(frozenset((v, v)))`) are
  embedded as `PyTup := List (Option Int)`.
-/

abbrev Vertex := Int

abbrev Edge := Int × Int

/-- Embeds a Python tuple of vertices or `None`s (entries of `sorted_edges`). -/
abbrev PyTup := List (Option Int)

/-- Embeds `unlist` (src/main.py line 4): flattens a list of edges into the
list of their endpoints, in order. -/
def unlist (edges : List Edge) : List Vertex :=
  (edges.map (fun e => [e.1, e.2])).flatten

instance {ε α : Type} [DecidableEq ε] [DecidableEq α] :
    DecidableEq (Except ε α) := fun x y =>
  match x, y with
  | .error a, .error b =>
      if h : a = b then .isTrue (by rw [h]) else .isFalse (by simp [h])
  | .error _, .ok _ => .isFalse (by simp)
  | .ok _, .error _ => .isFalse (by simp)
  | .ok a, .ok b =>
      if h : a = b then .isTrue (by rw [h]) else .isFalse (by simp [h])

/-- Insertion of an integer into a sorted list, keeping it sorted. -/
def insertSorted (x : Int) : List Int → List Int
  | [] => [x]
  | y :: ys => if x ≤ y then x :: y :: ys else y :: insertSorted x ys

/-- Insertion sort on integer lists. -/
def sortInts : List Int → List Int
  | [] => []
  | x :: xs => insertSorted x (sortInts xs)

/-- Embeds CPython's `list(set(xs))` for the integer elements used by this
program: the distinct values, in ascending numeric order (see the header
comment; for small non-negative ints each value occupies the hash-table slot
equal to its value, and iteration scans the slots in ascending order). -/
def pySetList (xs : List Int) : List Int :=
  sortInts xs.dedup

/-- Embeds the `vertex_counts` dictionary (src/main.py lines 34-37): keys in
the iteration order of `list(set(vertices))`, each mapped to the number of
occurrences of the vertex among all edge endpoints. -/
def vertexCounts (edges : List Edge) : List (Int × Nat) :=
  (pySetList (unlist edges)).map (fun v => (v, (unlist edges).count v))

/-- Embeds `forks` (src/main.py line 40): vertices whose endpoint count
exceeds 2, in table order. -/
def forksList (edges : List Edge) : List Int :=
  ((vertexCounts edges).filter (fun p => 2 < p.2)).map Prod.fst

/-- Embeds `ends` (src/main.py line 45): vertices whose endpoint count is
exactly 1, in table order. -/
def endsList (edges : List Edge) : List Int :=
  ((vertexCounts edges).filter (fun p => p.2 = 1)).map Prod.fst

/-- Embeds `cycles` (src/main.py line 46): vertices whose endpoint count is
exactly 2, in table order. -/
def cyclesList (edges : List Edge) : List Int :=
  ((vertexCounts edges).filter (fun p => p.2 = 2)).map Prod.fst

/-- Failure modes of the program.  The first four embed the `assert`
statements of src/main.py (each carrying the data its message interpolates);
`indexError`, `valueError` and `firstEdgeNone` embed the Python runtime
errors reachable in the code (`vertices[0]` / tuple indexing, `list.remove`
of an absent value, `frozenset(None)` when `get_first_edge` returns `None`).
`notAllSorted` embeds the final assertion of `get_ordered_edges`
(src/main.py line 137), which interpolates `sorted_edges` into its message. -/
inductive Err where
  | vertexNotFound (v : Int) (vertices : List Int)
  | forked (forks : List Int)
  | ambiguous (ends : List Int) (numCycles numVertices : Nat)
  | invalidStart (v : Int) (ends : List Int)
  | indexError
  | valueError
  | firstEdgeNone
  | notAllSorted (sortedEdges : List PyTup)
  deriving DecidableEq, Repr

/-- Embeds `get_valid_starting_vertex` (src/main.py lines 16-66).  The four
assertions are checked in source order: membership of a provided starting
vertex (lines 30-32), no forks (lines 39-42), two ends or all vertices
doubled (lines 44-49), provided vertex is an end point when ends exist
(lines 51-54).  Resolution (lines 56-66) returns the provided vertex, else
`ends[0]`, else `vertices[0]` (an `IndexError` when `vertices` is empty). -/
def get_valid_starting_vertex (edges : List Edge) (sv? : Option Int) :
    Except Err Int :=
  let vertices := unlist edges
  match sv? with
  | some sv =>
      if sv ∈ vertices then
        if forksList edges = [] then
          if (endsList edges).length = 2 ∨
              (cyclesList edges).length = (vertexCounts edges).length then
            if 0 < (endsList edges).length then
              if sv ∈ endsList edges then .ok sv
              else .error (.invalidStart sv (endsList edges))
            else .ok sv
          else
            .error (.ambiguous (endsList edges) (cyclesList edges).length
              (vertexCounts edges).length)
        else .error (.forked (forksList edges))
      else .error (.vertexNotFound sv vertices)
  | none =>
      if forksList edges = [] then
        if (endsList edges).length = 2 ∨
            (cyclesList edges).length = (vertexCounts edges).length then
          match endsList edges with
          | e :: _ => .ok e
          | [] =>
              match vertices with
              | v :: _ => .ok v
              | [] => .error .indexError
        else
          .error (.ambiguous (endsList edges) (cyclesList edges).length
            (vertexCounts edges).length)
      else .error (.forked (forksList edges))

/-- Embeds `get_first_edge` (src/main.py lines 69-89): scans the edges in
input order and returns the first one containing the starting vertex,
oriented so the starting vertex comes first.  The function's final
`assert True, ...` is vacuous, so when no edge contains the vertex the
Python function silently returns `None`: embedded as `none`. -/
def get_first_edge (edges : List Edge) (starting_vertex : Int) :
    Option Edge :=
  match edges with
  | [] => none
  | (a, b) :: rest =>
      if a = starting_vertex then some (a, b)
      else if b = starting_vertex then some (b, a)
      else get_first_edge rest starting_vertex

/-- Embeds `frozenset(edge)` for an input edge: the canonical (deduplicated,
ascending) list of its endpoints, so that list-equality coincides with
Python's set equality and iteration order matches CPython's for the small
non-negative ints used here.  A self-loop `(v, v)` yields the singleton. -/
def fsEdge (e : Edge) : List Int :=
  pySetList [e.1, e.2]

/-- Embeds Python tuple indexing `t[i]`: an `IndexError` out of range. -/
def pyIndex (t : PyTup) (i : Nat) : Except Err (Option Int) :=
  match t.get? i with
  | some v => .ok v
  | none => .error .indexError

/-- Embeds `list.remove(x)`: removes the first element equal to `x`, raising
`ValueError` when none is present. -/
def listRemove (x : List Int) : List (List Int) → Except Err (List (List Int))
  | [] => .error .valueError
  | y :: ys =>
      if y = x then .ok ys else (listRemove x ys).map (fun l => y :: l)

/-- Embeds one scan of the inner loop of `get_ordered_edges` (src/main.py
lines 118-134): for each remaining edge set, `f_edge = tuple(edge_set)` and
`r_edge = f_edge[::-1]`; the first set whose `f_edge[0]` or `r_edge[0]`
equals the tail is returned together with the oriented tuple to append.
`f_edge[0]` on the empty tuple would be an `IndexError` (unreachable: every
remaining set is the frozenset of an input edge, hence non-empty).  The tail
is an `Option Int` because `sorted_edges[i-1][1]` can be Python's `None`. -/
def findMatch (tail : Option Int) :
    List (List Int) → Except Err (Option (PyTup × List Int))
  | [] => .ok none
  | es :: rest =>
      match es.head?, es.getLast? with
      | some f0, some r0 =>
          if some f0 = tail then .ok (some (es.map some, es))
          else if some r0 = tail then .ok (some (es.reverse.map some, es))
          else findMatch tail rest
      | _, _ => .error .indexError

/-- Embeds the outer loop of `get_ordered_edges` (src/main.py lines
115-134), run for indices `1 .. len(edges)-1`.  `accRev` holds the filled
prefix of `sorted_edges` in reverse (its head is `sorted_edges[i-1]`).  On a
match the oriented tuple is appended and the matched frozenset removed from
the remaining list (`list.remove` removes the first value-equal element; no
earlier element can be value-equal to the match, since it would itself have
matched, so removal happens at the match position — embedded literally via
`listRemove`).  When no remaining edge matches, `sorted_edges[i]` keeps its
`(None, None)` padding and the loop continues with the next index. -/
def chainLoop :
    Nat → List PyTup → List (List Int) →
      Except Err (List PyTup × List (List Int))
  | 0, accRev, remaining => .ok (accRev.reverse, remaining)
  | k + 1, accRev, remaining =>
      match pyIndex (accRev.headD []) 1 with
      | .error e => .error e
      | .ok tail =>
          match findMatch tail remaining with
          | .error e => .error e
          | .ok (some (tup, es)) =>
              match listRemove es remaining with
              | .error e => .error e
              | .ok remaining2 => chainLoop k (tup :: accRev) remaining2
          | .ok none => chainLoop k (([none, none] : PyTup) :: accRev) remaining

/-- Embeds `get_ordered_edges` (src/main.py lines 92-141): validates and
resolves the starting vertex, obtains and removes the first oriented edge,
runs the chain-building loop, and finally asserts that no edges remain
(src/main.py line 137, whose message interpolates `sorted_edges`). -/
def get_ordered_edges (edges : List Edge) (sv? : Option Int := none) :
    Except Err (List PyTup) :=
  match get_valid_starting_vertex edges sv? with
  | .error e => .error e
  | .ok sv =>
      match get_first_edge edges sv with
      | none => .error .firstEdgeNone
      | some fe =>
          match listRemove (fsEdge fe) (edges.map fsEdge) with
          | .error e => .error e
          | .ok remaining1 =>
              match chainLoop (edges.length - 1)
                  [[some fe.1, some fe.2]] remaining1 with
              | .error e => .error e
              | .ok (res, remF) =>
                  if remF.length = 0 then .ok res
                  else .error (.notAllSorted res)

/-- Deduplication keeping the first occurrence of each element (the
iteration order the specification attributes to the degree table: insertion
order of each vertex's first distinct appearance).  Used only to state what
the specification predicts, for comparison with `pySetList`. -/
def dedupFirstAux (seen : List Int) : List Int → List Int
  | [] => []
  | x :: xs =>
      if x ∈ seen then dedupFirstAux seen xs
      else x :: dedupFirstAux (x :: seen) xs

/-- Deduplication keeping first occurrences, starting from no seen
elements. -/
def dedupFirst (xs : List Int) : List Int :=
  dedupFirstAux [] xs

/-- First degree-1 vertex in first-appearance order: the starting vertex the
specification predicts for a path input with no provided start.  Stated from
the specification's words, for comparison with the source's behaviour. -/
def specFirstAppearanceEnd (edges : List Edge) : Option Int :=
  ((dedupFirst (unlist edges)).filter
    (fun v => (unlist edges).count v = 1)).head?

/-- Oriented edges of a walk along the given vertex list: consecutive
vertices become oriented edges. -/
def walkEdges : List Int → List (Int × Int)
  | [] => []
  | [_] => []
  | a :: b :: rest => (a, b) :: walkEdges (b :: rest)

/-- Oriented edge as the Python output tuple. -/
def orientTup (a b : Int) : PyTup := [some a, some b]

/-- The edge list forms a simple path: some duplicate-free vertex sequence
of length at least 2 whose consecutive unordered pairs are exactly the input
edges (as a multiset of unordered pairs). -/
def IsSimplePath (edges : List Edge) : Prop :=
  ∃ v0 vs, (v0 :: vs).Nodup ∧ vs ≠ [] ∧
    (edges.map fsEdge).Perm ((walkEdges (v0 :: vs)).map fsEdge)

/-- The edge list forms a simple cycle: some duplicate-free vertex sequence,
closed back to its first vertex, whose consecutive unordered pairs are
exactly the input edges (as a multiset of unordered pairs).  The degenerate
cases are the self-loop (`vs = []`) and the doubled edge (`vs` a
singleton). -/
def IsSimpleCycle (edges : List Edge) : Prop :=
  ∃ v0 vs, (v0 :: vs).Nodup ∧
    (edges.map fsEdge).Perm ((walkEdges (v0 :: vs ++ [v0])).map fsEdge)

/-- Number of endpoint occurrences a canonical edge set contributes to a
vertex: a singleton (self-loop) contributes its element twice. -/
def endCount (v : Int) (s : List Int) : Nat :=
  if s.length = 1 then 2 * s.count v else s.count v

/-- Total endpoint occurrences of `v` over a list of canonical edge sets. -/
def setSum (v : Int) (l : List (List Int)) : Nat :=
  (l.map (endCount v)).sum

/-- Endpoint occurrences of `v` along a walk, measured on the walk's edge
sets. -/
def walkSum (v : Int) (w : List Int) : Nat :=
  setSum v ((walkEdges w).map fsEdge)

theorem mem_insertSorted {x a : Int} {l : List Int} :
    x ∈ insertSorted a l ↔ x = a ∨ x ∈ l := by
  induction l with
  | nil => simp [insertSorted]
  | cons y ys ih =>
      by_cases h : a ≤ y
      · simp [insertSorted, h]
      · simp [insertSorted, h, ih]
        tauto

theorem insertSorted_perm (a : Int) (l : List Int) :
    (insertSorted a l).Perm (a :: l) := by
  induction l with
  | nil => simp [insertSorted]
  | cons y ys ih =>
      by_cases h : a ≤ y
      · simp [insertSorted, h]
      · simp only [insertSorted, if_neg h]
        exact (ih.cons y).trans (List.Perm.swap a y ys)

theorem sortInts_perm (l : List Int) : (sortInts l).Perm l := by
  induction l with
  | nil => simp [sortInts]
  | cons x xs ih => exact (insertSorted_perm x (sortInts xs)).trans (ih.cons x)

theorem pySetList_perm_dedup (xs : List Int) :
    (pySetList xs).Perm xs.dedup :=
  sortInts_perm _

theorem mem_pySetList {v : Int} {xs : List Int} :
    v ∈ pySetList xs ↔ v ∈ xs := by
  rw [(pySetList_perm_dedup xs).mem_iff]; exact List.mem_dedup

theorem nodup_pySetList (xs : List Int) : (pySetList xs).Nodup :=
  (pySetList_perm_dedup xs).nodup_iff.2 (List.nodup_dedup xs)

theorem dedup_one (a : Int) : ([a] : List Int).dedup = [a] := by
  rw [List.dedup_cons_of_not_mem (by simp)]
  rfl

theorem fsEdge_eq (a b : Int) :
    fsEdge (a, b) = if a = b then [a] else if a ≤ b then [a, b] else [b, a] := by
  show pySetList [a, b] = _
  by_cases hab : a = b
  · subst hab
    have h1 : ([a, a] : List Int).dedup = [a] := by
      rw [List.dedup_cons_of_mem (by simp)]
      exact dedup_one a
    simp [pySetList, h1, sortInts, insertSorted]
  · have h1 : ([a, b] : List Int).dedup = [a, b] := by
      rw [List.dedup_cons_of_not_mem (by simp [dedup_one, hab])]
      rw [dedup_one]
    simp only [pySetList, h1, sortInts, insertSorted, if_neg hab]

theorem fsEdge_comm (a b : Int) : fsEdge (a, b) = fsEdge (b, a) := by
  rw [fsEdge_eq, fsEdge_eq]
  by_cases hab : a = b
  · simp [hab]
  · have hba : ¬ b = a := fun h => hab h.symm
    by_cases hle : a ≤ b
    · have : ¬ b ≤ a := fun h => hab (le_antisymm hle h)
      simp [hab, hba, hle, this]
    · have : b ≤ a := le_of_not_le hle
      simp [hab, hba, hle, this]

theorem mem_fsEdge {v a b : Int} : v ∈ fsEdge (a, b) ↔ v = a ∨ v = b := by
  show v ∈ pySetList [a, b] ↔ _
  rw [mem_pySetList]; simp

theorem fsEdge_ne_nil (e : Edge) : fsEdge e ≠ [] := by
  obtain ⟨a, b⟩ := e
  rw [fsEdge_eq]
  by_cases hab : a = b
  · simp [hab]
  · by_cases hle : a ≤ b <;> simp [hab, hle]

theorem endCount_fsEdge (v a b : Int) :
    endCount v (fsEdge (a, b)) =
      (if a = v then 1 else 0) + (if b = v then 1 else 0) := by
  rw [fsEdge_eq]
  by_cases hab : a = b
  · rw [if_pos hab]; subst hab
    by_cases h : a = v <;> simp [endCount, h, List.count_cons]
  · rw [if_neg hab]
    by_cases hle : a ≤ b
    · rw [if_pos hle]
      by_cases h1 : a = v <;> by_cases h2 : b = v <;>
        simp [endCount, h1, h2, List.count_cons]
    · rw [if_neg hle]
      by_cases h1 : a = v <;> by_cases h2 : b = v <;>
        simp [endCount, h1, h2, List.count_cons]

theorem count_unlist (v : Int) (es : List Edge) :
    (unlist es).count v = setSum v (es.map fsEdge) := by
  induction es with
  | nil => simp [unlist, setSum]
  | cons e es ih =>
      obtain ⟨a, b⟩ := e
      have h1 : unlist ((a, b) :: es) = a :: b :: unlist es := by
        simp [unlist]
      rw [h1]
      simp only [List.map_cons, setSum, List.sum_cons, endCount_fsEdge,
        List.count_cons]
      rw [show ((es.map fsEdge).map (endCount v)).sum = setSum v (es.map fsEdge)
        from rfl, ← ih]
      by_cases h1 : a = v <;> by_cases h2 : b = v <;> simp [h1, h2] <;> omega

theorem setSum_eq_of_perm {l m : List (List Int)} (h : l.Perm m) (v : Int) :
    setSum v l = setSum v m :=
  (h.map (endCount v)).sum_eq

theorem count_unlist_eq_walkSum {es : List Edge} {w : List Int}
    (h : (es.map fsEdge).Perm ((walkEdges w).map fsEdge)) (v : Int) :
    (unlist es).count v = walkSum v w := by
  rw [count_unlist, walkSum]
  exact setSum_eq_of_perm h v

theorem walkEdges_cons_cons (a b : Int) (l : List Int) :
    walkEdges (a :: b :: l) = (a, b) :: walkEdges (b :: l) := rfl

theorem walkEdges_length (w : List Int) :
    (walkEdges w).length = w.length - 1 := by
  induction w with
  | nil => rfl
  | cons a t ih =>
      cases t with
      | nil => rfl
      | cons b t2 =>
          simp only [walkEdges_cons_cons, List.length_cons, ih]
          omega

theorem walkEdges_concat (a x : Int) (l : List Int) :
    walkEdges ((a :: l) ++ [x]) = walkEdges (a :: l) ++ [(l.getLastD a, x)] := by
  induction l generalizing a with
  | nil => rfl
  | cons b t ih =>
      simp only [List.cons_append] at ih ⊢
      rw [walkEdges_cons_cons, walkEdges_cons_cons, ih b, List.getLastD_cons]
      rfl

theorem walkSum_cons_cons (v a b : Int) (t : List Int) :
    walkSum v (a :: b :: t) = endCount v (fsEdge (a, b)) + walkSum v (b :: t) := by
  simp [walkSum, setSum, walkEdges_cons_cons]

theorem walkSum_one (v a : Int) : walkSum v [a] = 0 := rfl

theorem walkSum_eq (v a b : Int) (t : List Int) :
    walkSum v (a :: b :: t) =
      (a :: b :: t).count v + ((b :: t).dropLast).count v := by
  induction t generalizing a b with
  | nil =>
      rw [walkSum_cons_cons, walkSum_one, endCount_fsEdge]
      by_cases h1 : a = v <;> by_cases h2 : b = v <;>
        simp [h1, h2, List.count_cons]
  | cons c t2 ih =>
      rw [walkSum_cons_cons, ih b c, endCount_fsEdge]
      have hdl : ((b :: c :: t2).dropLast) = b :: ((c :: t2).dropLast) := rfl
      rw [hdl]
      by_cases h1 : a = v <;> by_cases h2 : b = v <;>
        simp [h1, h2, List.count_cons] <;> omega

theorem getLast_not_mem_dropLast (l : List Int) (h : l.Nodup) (hne : l ≠ []) :
    l.getLast hne ∉ l.dropLast := by
  intro hmem
  have hsplit := List.dropLast_append_getLast hne
  rw [← hsplit] at h
  rcases List.nodup_append.1 h with ⟨-, -, hdisj⟩
  exact hdisj hmem (by simp)

theorem walkSum_path_le (v0 : Int) (vs : List Int) (hnd : (v0 :: vs).Nodup)
    (v : Int) : walkSum v (v0 :: vs) ≤ 2 := by
  cases vs with
  | nil => simp [walkSum_one]
  | cons b t =>
      rw [walkSum_eq]
      have h1 : (v0 :: b :: t).count v ≤ 1 :=
        List.nodup_iff_count_le_one.1 hnd v
      have h2 : ((b :: t).dropLast).count v ≤ 1 := by
        have hsub : ((b :: t).dropLast).Sublist (v0 :: b :: t) :=
          (List.dropLast_sublist (b :: t)).trans (List.sublist_cons_self v0 _)
        exact List.nodup_iff_count_le_one.1 (hsub.nodup hnd) v
      omega

theorem walkSum_zero_of_not_mem (v0 : Int) (vs : List Int) (v : Int)
    (h : v ∉ v0 :: vs) : walkSum v (v0 :: vs) = 0 := by
  cases vs with
  | nil => simp [walkSum_one]
  | cons b t =>
      rw [walkSum_eq]
      have h1 : (v0 :: b :: t).count v = 0 := List.count_eq_zero.2 h
      have h2 : ((b :: t).dropLast).count v = 0 := by
        refine List.count_eq_zero.2 fun hmem => h ?_
        exact List.mem_cons_of_mem v0 ((List.dropLast_sublist (b :: t)).mem hmem)
      omega

theorem walkSum_path_one_iff (v0 : Int) (vs : List Int)
    (hnd : (v0 :: vs).Nodup) (hne : vs ≠ []) (v : Int) :
    walkSum v (v0 :: vs) = 1 ↔ v = v0 ∨ v = vs.getLast hne := by
  obtain ⟨b, t, rfl⟩ : ∃ b t, vs = b :: t := by
    cases vs with
    | nil => exact absurd rfl hne
    | cons b t => exact ⟨b, t, rfl⟩
  rw [walkSum_eq]
  have hndt : (b :: t).Nodup := hnd.of_cons
  have hc1 : (v0 :: b :: t).count v ≤ 1 := List.nodup_iff_count_le_one.1 hnd v
  have hc2 : ((b :: t).dropLast).count v ≤ ((b :: t)).count v :=
    (List.dropLast_sublist (b :: t)).count_le v
  have hc3 : ((b :: t)).count v ≤ (v0 :: b :: t).count v :=
    (List.sublist_cons_self v0 (b :: t)).count_le v
  constructor
  · intro hsum
    have hm : v ∈ v0 :: b :: t := by
      by_contra hnm
      have hz : (v0 :: b :: t).count v = 0 := List.count_eq_zero.2 hnm
      omega
    have hcount1 : (v0 :: b :: t).count v = 1 :=
      List.count_eq_one_of_mem hnd hm
    have hdl0 : ((b :: t).dropLast).count v = 0 := by omega
    have hndl : v ∉ (b :: t).dropLast := List.count_eq_zero.1 hdl0
    rcases List.mem_cons.1 hm with h0 | hbt
    · exact Or.inl h0
    · right
      have hsplit := List.dropLast_append_getLast (l := b :: t) (by simp)
      rw [← hsplit] at hbt
      rcases List.mem_append.1 hbt with hd | hl
      · exact absurd hd hndl
      · simpa using hl
  · rintro (h0 | hl)
    · subst h0
      have hv0 : v ∉ (b :: t) := (List.nodup_cons.1 hnd).1
      have h1 : (v :: b :: t).count v = 1 := by
        rw [List.count_cons_self, List.count_eq_zero.2 hv0]
      have h2 : ((b :: t).dropLast).count v = 0 :=
        List.count_eq_zero.2 fun hmem =>
          hv0 ((List.dropLast_sublist (b :: t)).mem hmem)
      omega
    · subst hl
      have hgmem : (b :: t).getLast hne ∈ b :: t := List.getLast_mem hne
      have h1 : (v0 :: b :: t).count ((b :: t).getLast hne) = 1 :=
        List.count_eq_one_of_mem hnd (List.mem_cons_of_mem v0 hgmem)
      have h2 : ((b :: t).dropLast).count ((b :: t).getLast hne) = 0 :=
        List.count_eq_zero.2 (getLast_not_mem_dropLast (b :: t) hndt hne)
      omega

theorem walkSum_cycle (v0 : Int) (vs : List Int) (hnd : (v0 :: vs).Nodup)
    (v : Int) :
    walkSum v (v0 :: vs ++ [v0]) = if v ∈ v0 :: vs then 2 else 0 := by
  cases vs with
  | nil =>
      rw [show ((v0 :: [] ++ [v0]) : List Int) = [v0, v0] from rfl]
      rw [walkSum_cons_cons, walkSum_one, endCount_fsEdge]
      by_cases h : v = v0
      · simp [h]
      · have h2 : ¬ v0 = v := fun hh => h hh.symm
        simp [h, h2]
  | cons b t =>
      rw [show (v0 :: (b :: t) ++ [v0]) = v0 :: b :: (t ++ [v0]) from rfl]
      rw [walkSum_eq]
      have hdl : ((b :: (t ++ [v0])).dropLast) = b :: t := by
        rw [show (b :: (t ++ [v0])) = (b :: t) ++ [v0] from rfl,
          List.dropLast_concat]
      rw [hdl]
      have h1 : (v0 :: b :: (t ++ [v0])) = (v0 :: b :: t) ++ [v0] := rfl
      rw [h1, List.count_append]
      by_cases hm : v ∈ v0 :: b :: t
      · rw [if_pos hm]
        have hc : (v0 :: b :: t).count v = 1 := List.count_eq_one_of_mem hnd hm
        rcases List.mem_cons.1 hm with rfl | hbt
        · have hv0 : v ∉ b :: t := (List.nodup_cons.1 hnd).1
          have h2 : (b :: t).count v = 0 := List.count_eq_zero.2 hv0
          have h3 : ([v] : List Int).count v = 1 := by simp
          omega
        · have hvne : v ≠ v0 := by
            rintro rfl
            exact (List.nodup_cons.1 hnd).1 hbt
          have h2 : ([v0] : List Int).count v = 0 :=
            List.count_eq_zero.2 (by simp [hvne])
          have h3 : (b :: t).count v = 1 :=
            List.count_eq_one_of_mem hnd.of_cons hbt
          omega
      · rw [if_neg hm]
        have h2 : (v0 :: b :: t).count v = 0 := List.count_eq_zero.2 hm
        have h3 : (b :: t).count v = 0 :=
          List.count_eq_zero.2 fun h => hm (List.mem_cons_of_mem _ h)
        have h4 : ([v0] : List Int).count v = 0 := by
          refine List.count_eq_zero.2 fun h => hm ?_
          simp at h
          simp [h]
        omega

theorem tableFilter (l : List Int) (c : Int → Nat) (q : Nat → Prop)
    [DecidablePred q] :
    (((l.map (fun v => (v, c v))).filter (fun p => q p.2)).map Prod.fst)
      = l.filter (fun v => q (c v)) := by
  induction l with
  | nil => rfl
  | cons x xs ih => by_cases h : q (c x) <;> simp [h, ih]

theorem forksList_eq (edges : List Edge) :
    forksList edges = (pySetList (unlist edges)).filter
      (fun v => 2 < (unlist edges).count v) :=
  tableFilter (pySetList (unlist edges)) (fun v => (unlist edges).count v)
    (fun n => 2 < n)

theorem endsList_eq (edges : List Edge) :
    endsList edges = (pySetList (unlist edges)).filter
      (fun v => (unlist edges).count v = 1) :=
  tableFilter (pySetList (unlist edges)) (fun v => (unlist edges).count v)
    (fun n => n = 1)

theorem cyclesList_eq (edges : List Edge) :
    cyclesList edges = (pySetList (unlist edges)).filter
      (fun v => (unlist edges).count v = 2) :=
  tableFilter (pySetList (unlist edges)) (fun v => (unlist edges).count v)
    (fun n => n = 2)

theorem mem_forksList {edges : List Edge} {v : Int} :
    v ∈ forksList edges ↔ 2 < (unlist edges).count v := by
  rw [forksList_eq, List.mem_filter]
  constructor
  · intro ⟨_, h⟩; simpa using h
  · intro h
    refine ⟨mem_pySetList.2 (List.count_pos_iff.1 (by omega)), by simpa using h⟩

theorem mem_endsList {edges : List Edge} {v : Int} :
    v ∈ endsList edges ↔ (unlist edges).count v = 1 := by
  rw [endsList_eq, List.mem_filter]
  constructor
  · intro ⟨_, h⟩; simpa using h
  · intro h
    refine ⟨mem_pySetList.2 (List.count_pos_iff.1 (by omega)), by simpa using h⟩

theorem mem_cyclesList {edges : List Edge} {v : Int} :
    v ∈ cyclesList edges ↔ (unlist edges).count v = 2 := by
  rw [cyclesList_eq, List.mem_filter]
  constructor
  · intro ⟨_, h⟩; simpa using h
  · intro h
    refine ⟨mem_pySetList.2 (List.count_pos_iff.1 (by omega)), by simpa using h⟩

theorem nodup_endsList (edges : List Edge) : (endsList edges).Nodup := by
  rw [endsList_eq]
  exact (nodup_pySetList _).filter _

theorem forksList_nil_iff (edges : List Edge) :
    forksList edges = [] ↔ ∀ v, (unlist edges).count v ≤ 2 := by
  constructor
  · intro h v
    by_contra hc
    have : v ∈ forksList edges := mem_forksList.2 (by omega)
    simp [h] at this
  · intro h
    rw [List.eq_nil_iff_forall_not_mem]
    intro v hv
    have := mem_forksList.1 hv
    have := h v
    omega

theorem endsList_nil_iff (edges : List Edge) :
    endsList edges = [] ↔ ∀ v, (unlist edges).count v ≠ 1 := by
  constructor
  · intro h v
    by_contra hc
    have : v ∈ endsList edges := mem_endsList.2 (by omega)
    simp [h] at this
  · intro h
    rw [List.eq_nil_iff_forall_not_mem]
    intro v hv
    exact h v (mem_endsList.1 hv)

/-- Under a path hypothesis the degree-1 vertices are exactly the two walk
end points, and `ends` lists both of them. -/
theorem endsList_path_perm {edges : List Edge} {v0 : Int} {vs : List Int}
    (hnd : (v0 :: vs).Nodup) (hne : vs ≠ [])
    (hperm : (edges.map fsEdge).Perm ((walkEdges (v0 :: vs)).map fsEdge)) :
    (endsList edges).Perm [v0, vs.getLast hne] := by
  have hcount : ∀ v, (unlist edges).count v = walkSum v (v0 :: vs) :=
    fun v => count_unlist_eq_walkSum hperm v
  have hmem : ∀ v, v ∈ endsList edges ↔ v = v0 ∨ v = vs.getLast hne := by
    intro v
    rw [mem_endsList, hcount v, walkSum_path_one_iff v0 vs hnd hne v]
  have hgl : vs.getLast hne ∈ vs := List.getLast_mem hne
  have hv0g : v0 ≠ vs.getLast hne := by
    rintro rfl
    exact (List.nodup_cons.1 hnd).1 hgl
  refine (List.perm_ext_iff_of_nodup (nodup_endsList edges) ?_).2 ?_
  · simp [hv0g]
  · intro a
    rw [hmem a]
    simp

theorem endsList_path_length {edges : List Edge} {v0 : Int} {vs : List Int}
    (hnd : (v0 :: vs).Nodup) (hne : vs ≠ [])
    (hperm : (edges.map fsEdge).Perm ((walkEdges (v0 :: vs)).map fsEdge)) :
    (endsList edges).length = 2 :=
  (endsList_path_perm hnd hne hperm).length_eq

theorem forksList_path_nil {edges : List Edge} {v0 : Int} {vs : List Int}
    (hnd : (v0 :: vs).Nodup)
    (hperm : (edges.map fsEdge).Perm ((walkEdges (v0 :: vs)).map fsEdge)) :
    forksList edges = [] := by
  refine (forksList_nil_iff edges).2 fun v => ?_
  rw [count_unlist_eq_walkSum hperm v]
  exact walkSum_path_le v0 vs hnd v

theorem count_cycle {edges : List Edge} {v0 : Int} {vs : List Int}
    (hnd : (v0 :: vs).Nodup)
    (hperm : (edges.map fsEdge).Perm
      ((walkEdges (v0 :: vs ++ [v0])).map fsEdge)) (v : Int) :
    (unlist edges).count v = if v ∈ v0 :: vs then 2 else 0 := by
  rw [count_unlist_eq_walkSum hperm v]
  exact walkSum_cycle v0 vs hnd v

theorem forksList_cycle_nil {edges : List Edge} {v0 : Int} {vs : List Int}
    (hnd : (v0 :: vs).Nodup)
    (hperm : (edges.map fsEdge).Perm
      ((walkEdges (v0 :: vs ++ [v0])).map fsEdge)) :
    forksList edges = [] := by
  refine (forksList_nil_iff edges).2 fun v => ?_
  rw [count_cycle hnd hperm v]
  split <;> omega

theorem endsList_cycle_nil {edges : List Edge} {v0 : Int} {vs : List Int}
    (hnd : (v0 :: vs).Nodup)
    (hperm : (edges.map fsEdge).Perm
      ((walkEdges (v0 :: vs ++ [v0])).map fsEdge)) :
    endsList edges = [] := by
  refine (endsList_nil_iff edges).2 fun v => ?_
  rw [count_cycle hnd hperm v]
  split <;> omega

theorem cyclesList_cycle_full {edges : List Edge} {v0 : Int} {vs : List Int}
    (hnd : (v0 :: vs).Nodup)
    (hperm : (edges.map fsEdge).Perm
      ((walkEdges (v0 :: vs ++ [v0])).map fsEdge)) :
    (cyclesList edges).length = (vertexCounts edges).length := by
  have h1 : cyclesList edges = pySetList (unlist edges) := by
    rw [cyclesList_eq]
    refine List.filter_eq_self.2 fun v hv => ?_
    have hv2 : v ∈ unlist edges := mem_pySetList.1 hv
    have hpos : 0 < (unlist edges).count v := List.count_pos_iff.2 hv2
    have := count_cycle hnd hperm v
    simp only [decide_eq_true_eq]
    by_cases hm : v ∈ v0 :: vs
    · rw [this, if_pos hm]
    · rw [this, if_neg hm] at hpos
      omega
  rw [h1]
  show (pySetList (unlist edges)).length = _
  rw [vertexCounts, List.length_map]


theorem walkEdges_ne_nil_len {l : List Int} (h : 2 ≤ l.length) :
    1 ≤ (walkEdges l).length := by
  rw [walkEdges_length]
  omega

theorem edges_ne_nil_of_perm_walk {edges : List Edge} {w : List Int}
    (hlen : 2 ≤ w.length)
    (hperm : (edges.map fsEdge).Perm ((walkEdges w).map fsEdge)) :
    edges ≠ [] := by
  intro hnil
  subst hnil
  have h1 := hperm.length_eq
  simp only [List.map_nil, List.length_nil, List.length_map] at h1
  have h2 := walkEdges_ne_nil_len hlen
  omega

theorem unlist_cons (a b : Int) (es : List Edge) :
    unlist ((a, b) :: es) = a :: b :: unlist es := by
  simp [unlist]

theorem valid_none_of_path {edges : List Edge} {v0 : Int} {vs : List Int}
    (hnd : (v0 :: vs).Nodup) (hne : vs ≠ [])
    (hperm : (edges.map fsEdge).Perm ((walkEdges (v0 :: vs)).map fsEdge)) :
    ∃ sv, get_valid_starting_vertex edges none = .ok sv ∧
      (unlist edges).count sv = 1 := by
  have hforks := forksList_path_nil hnd hperm
  have hlen := endsList_path_length hnd hne hperm
  obtain ⟨e, rest, hends⟩ : ∃ e rest, endsList edges = e :: rest := by
    cases h : endsList edges with
    | nil => rw [h] at hlen; simp at hlen
    | cons e rest => exact ⟨e, rest, rfl⟩
  refine ⟨e, ?_, mem_endsList.1 (by rw [hends]; exact List.mem_cons_self e rest)⟩
  simp only [get_valid_starting_vertex]
  rw [if_pos hforks, if_pos (Or.inl hlen), hends]

theorem valid_none_of_cycle {edges : List Edge} {v0 : Int} {vs : List Int}
    (hnd : (v0 :: vs).Nodup)
    (hperm : (edges.map fsEdge).Perm
      ((walkEdges (v0 :: vs ++ [v0])).map fsEdge)) :
    ∃ sv, get_valid_starting_vertex edges none = .ok sv ∧
      (unlist edges).count sv = 2 := by
  have hforks := forksList_cycle_nil hnd hperm
  have hends := endsList_cycle_nil hnd hperm
  have hcyc := cyclesList_cycle_full hnd hperm
  have hlen2 : 2 ≤ ((v0 :: vs) ++ [v0]).length := by
    simp
  have hne := edges_ne_nil_of_perm_walk hlen2 hperm
  obtain ⟨⟨a, b⟩, es, rfl⟩ : ∃ e es, edges = e :: es := by
    cases edges with
    | nil => exact absurd rfl hne
    | cons e es => exact ⟨e, es, rfl⟩
  refine ⟨a, ?_, ?_⟩
  · simp only [get_valid_starting_vertex]
    rw [if_pos hforks, if_pos (Or.inr hcyc), hends, unlist_cons]
  · have hmem : a ∈ unlist (((a, b) :: es)) := by
      rw [unlist_cons]; exact List.mem_cons_self _ _
    have hpos : 0 < (unlist ((a, b) :: es)).count a := List.count_pos_iff.2 hmem
    have hc := count_cycle hnd hperm a
    by_cases hm : a ∈ v0 :: vs
    · rw [hc, if_pos hm]
    · rw [hc, if_neg hm] at hpos
      omega

theorem valid_some_char {edges : List Edge} {sv v : Int}
    (h : get_valid_starting_vertex edges (some sv) = .ok v) :
    v = sv ∧ sv ∈ unlist edges ∧
      (0 < (endsList edges).length → sv ∈ endsList edges) := by
  simp only [get_valid_starting_vertex] at h
  split_ifs at h with h1 h2 h3 h4 h5
  · injection h with h'
    exact ⟨h'.symm, h1, fun _ => h5⟩
  · injection h with h'
    exact ⟨h'.symm, h1, fun hlt => absurd hlt h4⟩

theorem get_first_edge_mem {edges : List Edge} {sv : Int}
    (h : sv ∈ unlist edges) :
    ∃ x, get_first_edge edges sv = some (sv, x) ∧
      fsEdge (sv, x) ∈ edges.map fsEdge := by
  induction edges with
  | nil => simp [unlist] at h
  | cons e rest ih =>
      obtain ⟨a, b⟩ := e
      by_cases h1 : a = sv
      · subst h1
        exact ⟨b, by simp [get_first_edge], by simp⟩
      · by_cases h2 : b = sv
        · subst h2
          refine ⟨a, by simp [get_first_edge, h1], ?_⟩
          rw [fsEdge_comm]
          simp
        · rw [unlist_cons] at h
          have h3 : sv ∈ unlist rest := by
            rcases List.mem_cons.1 h with h' | h'
            · exact absurd h'.symm h1
            · rcases List.mem_cons.1 h' with h'' | h''
              · exact absurd h''.symm h2
              · exact h''
          obtain ⟨x, hx, hmem⟩ := ih h3
          refine ⟨x, ?_, List.mem_cons_of_mem _ hmem⟩
          simpa [get_first_edge, h1, h2] using hx

/-- Removal of the first value-equal element, the effect of Python's
`list.remove` on success. -/
def removeFirst (x : List Int) : List (List Int) → List (List Int)
  | [] => []
  | y :: ys => if y = x then ys else y :: removeFirst x ys

theorem listRemove_ok {x : List Int} {l : List (List Int)} (h : x ∈ l) :
    listRemove x l = .ok (removeFirst x l) := by
  induction l with
  | nil => simp at h
  | cons y ys ih =>
      by_cases hxy : y = x
      · simp [listRemove, removeFirst, hxy]
      · have h2 : x ∈ ys := by
          rcases List.mem_cons.1 h with h' | h'
          · exact absurd h'.symm hxy
          · exact h'
        simp only [listRemove, removeFirst, if_neg hxy, ih h2]
        rfl

theorem removeFirst_perm :
    ∀ {l m : List (List Int)} {x : List Int},
      l.Perm (x :: m) → (removeFirst x l).Perm m := by
  intro l
  induction l with
  | nil =>
      intro m x h
      exact absurd h.length_eq (by simp)
  | cons y ys ih =>
      intro m x h
      by_cases hxy : y = x
      · subst hxy
        rw [show removeFirst y (y :: ys) = ys from by simp [removeFirst]]
        exact (List.perm_cons y).1 h
      · have hym : y ∈ x :: m := h.mem_iff.1 (List.mem_cons_self _ _)
        have hym2 : y ∈ m := by
          rcases List.mem_cons.1 hym with h' | h'
          · exact absurd h' hxy
          · exact h'
        obtain ⟨m1, m2, rfl⟩ := List.append_of_mem hym2
        have hp : ((x :: m1) ++ y :: m2).Perm (y :: ((x :: m1) ++ m2)) :=
          List.perm_middle
        have h2 : (y :: ys).Perm (y :: (x :: (m1 ++ m2))) := h.trans hp
        have h3 : ys.Perm (x :: (m1 ++ m2)) := (List.perm_cons y).1 h2
        have h4 := ih h3
        rw [show removeFirst x (y :: ys) = y :: removeFirst x ys from by
          simp [removeFirst, hxy]]
        exact (h4.cons y).trans List.perm_middle.symm



theorem walk_edge_mem {x y : Int} {l : List Int}
    (h : (x, y) ∈ walkEdges l) : x ∈ l.dropLast ∧ y ∈ l.tail := by
  induction l with
  | nil => simp [walkEdges] at h
  | cons a t ih =>
      cases t with
      | nil => simp [walkEdges] at h
      | cons b t2 =>
          rw [walkEdges_cons_cons] at h
          rcases List.mem_cons.1 h with h' | h'
          · have hx : x = a := congrArg Prod.fst h'
            have hy : y = b := congrArg Prod.snd h'
            rw [hx, hy]
            constructor
            · show a ∈ a :: (b :: t2).dropLast
              exact List.mem_cons_self _ _
            · show b ∈ b :: t2
              exact List.mem_cons_self _ _
          · obtain ⟨hx, hy⟩ := ih h'
            constructor
            · show x ∈ a :: (b :: t2).dropLast
              exact List.mem_cons_of_mem a hx
            · show y ∈ b :: t2
              exact List.mem_cons_of_mem b (by simpa using hy)

theorem fsEdge_cases (t w : Int) (hne : t ≠ w) :
    (fsEdge (t, w) = [t, w] ∧ t ≤ w) ∨ (fsEdge (t, w) = [w, t] ∧ ¬ t ≤ w) := by
  rw [fsEdge_eq, if_neg hne]
  by_cases h : t ≤ w
  · exact Or.inl ⟨if_pos h, h⟩
  · exact Or.inr ⟨if_neg h, h⟩

theorem findMatch_skip {tail : Option Int} {es : List Int}
    {rest : List (List Int)} (c : Int) (cs : List Int) (hes : es = c :: cs)
    (hhead : some ((c :: cs).head (by simp)) ≠ tail)
    (hlast : some ((c :: cs).getLast (by simp)) ≠ tail) :
    findMatch tail (es :: rest) = findMatch tail rest := by
  subst hes
  have h1 : (c :: cs).head? = some c := rfl
  have h2 : (c :: cs).getLast? = some ((c :: cs).getLast (by simp)) :=
    List.getLast?_eq_getLast _ _
  simp only [findMatch, h1, h2]
  rw [if_neg (by simpa using hhead), if_neg (by simpa using hlast)]

theorem findMatch_found {t w : Int} (htw : t ≠ w) {remaining : List (List Int)}
    (hmem : fsEdge (t, w) ∈ remaining)
    (hcanon : ∀ s ∈ remaining, ∃ e : Edge, s = fsEdge e)
    (honly : ∀ s ∈ remaining, t ∈ s → s = fsEdge (t, w)) :
    findMatch (some t) remaining =
      .ok (some (orientTup t w, fsEdge (t, w))) := by
  induction remaining with
  | nil => simp at hmem
  | cons es rest ih =>
      by_cases hts : t ∈ es
      · have hes : es = fsEdge (t, w) := honly es (List.mem_cons_self _ _) hts
        subst hes
        rcases fsEdge_cases t w htw with ⟨hf, hle⟩ | ⟨hf, hle⟩
        · rw [hf]
          simp only [findMatch, List.head?_cons, List.getLast?_cons_cons,
            List.getLast?_singleton]
          simp [orientTup]
        · rw [hf]
          have hwt : ¬ (some w = some t) := by
            simp only [ne_eq, Option.some.injEq]
            exact fun h => htw h.symm
          simp only [findMatch, List.head?_cons, List.getLast?_cons_cons,
            List.getLast?_singleton]
          rw [if_neg hwt]
          simp [orientTup]
      · obtain ⟨⟨a, b⟩, he⟩ := hcanon es (List.mem_cons_self _ _)
        have hne : es ≠ [] := by rw [he]; exact fsEdge_ne_nil _
        obtain ⟨c, cs, hcs⟩ : ∃ c cs, es = c :: cs := by
          cases es with
          | nil => exact absurd rfl hne
          | cons c cs => exact ⟨c, cs, rfl⟩
        have hmem2 : fsEdge (t, w) ∈ rest := by
          rcases List.mem_cons.1 hmem with h' | h'
          · exfalso
            apply hts
            rw [← h']
            exact mem_fsEdge.2 (Or.inl rfl)
          · exact h'
        rw [findMatch_skip c cs hcs ?_ ?_]
        · exact ih hmem2 (fun s hs => hcanon s (List.mem_cons_of_mem _ hs))
            (fun s hs => honly s (List.mem_cons_of_mem _ hs))
        · simp only [List.head_cons, ne_eq, Option.some.injEq]
          intro hct
          apply hts
          rw [hcs, hct]
          exact List.mem_cons_self _ _
        · simp only [ne_eq, Option.some.injEq]
          intro hct
          apply hts
          rw [hcs, ← hct]
          exact List.getLast_mem _

theorem pyIndex_orientTup (a b : Int) :
    pyIndex (orientTup a b) 1 = .ok (some b) := rfl

theorem chainLoop_walk (ws : List Int) :
    ∀ (t : Int) (accRev : List PyTup) (remaining : List (List Int)),
    (t :: ws).Nodup →
    remaining.Perm ((walkEdges (t :: ws)).map fsEdge) →
    pyIndex (accRev.headD []) 1 = .ok (some t) →
    chainLoop ws.length accRev remaining =
      .ok (accRev.reverse ++
        (walkEdges (t :: ws)).map (fun e => orientTup e.1 e.2), []) := by
  induction ws with
  | nil =>
      intro t accRev remaining hnd hperm hhead
      have h0 : remaining = [] := by
        have : (walkEdges [t]).map fsEdge = [] := rfl
        rw [this] at hperm
        exact hperm.eq_nil
      subst h0
      simp [chainLoop, walkEdges]
  | cons w ws2 ih =>
      intro t accRev remaining hnd hperm hhead
      have htw : t ≠ w := by
        intro h
        subst h
        exact (List.nodup_cons.1 hnd).1 (List.mem_cons_self _ _)
      have hmem : fsEdge (t, w) ∈ remaining := by
        rw [hperm.mem_iff, walkEdges_cons_cons]
        exact List.mem_map_of_mem fsEdge (List.mem_cons_self _ _)
      have hcanon : ∀ s ∈ remaining, ∃ e : Edge, s = fsEdge e := by
        intro s hs
        obtain ⟨e, _, he⟩ := List.mem_map.1 (hperm.mem_iff.1 hs)
        exact ⟨e, he.symm⟩
      have honly : ∀ s ∈ remaining, t ∈ s → s = fsEdge (t, w) := by
        intro s hs hts
        obtain ⟨⟨x, y⟩, hxy, he⟩ := List.mem_map.1 (hperm.mem_iff.1 hs)
        rw [← he] at hts
        rcases mem_fsEdge.1 hts with h1 | h1
        · rw [walkEdges_cons_cons] at hxy
          rcases List.mem_cons.1 hxy with h' | h'
          · rw [← he, h']
          · exfalso
            have hx := (walk_edge_mem h').1
            have hxm : x ∈ w :: ws2 := (List.dropLast_sublist _).mem hx
            rw [← h1] at hxm
            exact (List.nodup_cons.1 hnd).1 hxm
        · exfalso
          have hy := (walk_edge_mem hxy).2
          have hym : y ∈ w :: ws2 := by simpa using hy
          rw [← h1] at hym
          exact (List.nodup_cons.1 hnd).1 hym
      have hfind := findMatch_found htw hmem hcanon honly
      have hrem := listRemove_ok hmem
      have hperm2 : (removeFirst (fsEdge (t, w)) remaining).Perm
          ((walkEdges (w :: ws2)).map fsEdge) := by
        apply removeFirst_perm
        rw [walkEdges_cons_cons] at hperm
        simpa using hperm
      have hnd2 : (w :: ws2).Nodup := hnd.of_cons
      have hstep := ih w (orientTup t w :: accRev)
        (removeFirst (fsEdge (t, w)) remaining) hnd2 hperm2 (by
          show pyIndex ((orientTup t w :: accRev).headD []) 1 = .ok (some w)
          rfl)
      show chainLoop (ws2.length + 1) accRev remaining = _
      simp only [chainLoop, hhead, hfind, hrem, hstep]
      rw [walkEdges_cons_cons]
      simp [List.append_assoc]



theorem getLast?_cons_getLastD (a : Int) (l : List Int) :
    (a :: l).getLast? = some (l.getLastD a) := by
  rw [List.getLast?_cons, List.getLastD_eq_getLast?]

/-- Among the edge sets of a duplicate-free walk, the only one containing the
first vertex is the first edge's. -/
theorem walk_head_only {t w : Int} {ws2 : List Int}
    (hnd : (t :: w :: ws2).Nodup) {s : List Int}
    (hs : s ∈ (walkEdges (t :: w :: ws2)).map fsEdge) (hts : t ∈ s) :
    s = fsEdge (t, w) := by
  obtain ⟨⟨x, y⟩, hxy, he⟩ := List.mem_map.1 hs
  rw [← he] at hts
  rcases mem_fsEdge.1 hts with h1 | h1
  · rw [walkEdges_cons_cons] at hxy
    rcases List.mem_cons.1 hxy with h' | h'
    · rw [← he, h']
    · exfalso
      have hx := (walk_edge_mem h').1
      have hxm : x ∈ w :: ws2 := (List.dropLast_sublist _).mem hx
      rw [← h1] at hxm
      exact (List.nodup_cons.1 hnd).1 hxm
  · exfalso
    have hy := (walk_edge_mem hxy).2
    have hym : y ∈ w :: ws2 := by simpa using hy
    rw [← h1] at hym
    exact (List.nodup_cons.1 hnd).1 hym

theorem walkEdges_chain (l : List Int) :
    List.Chain' (fun a b : Int × Int => a.2 = b.1) (walkEdges l) := by
  induction l with
  | nil => exact List.chain'_nil
  | cons a t ih =>
      cases t with
      | nil => exact List.chain'_nil
      | cons b t2 =>
          rw [walkEdges_cons_cons]
          rw [List.chain'_cons']
          refine ⟨?_, ih⟩
          intro y hy
          cases t2 with
          | nil => simp [walkEdges] at hy
          | cons c t3 =>
              rw [walkEdges_cons_cons] at hy
              simp only [List.head?_cons, Option.mem_def, Option.some.injEq] at hy
              rw [← hy]

theorem walkEdges_reverse (l : List Int) :
    walkEdges l.reverse = ((walkEdges l).map Prod.swap).reverse := by
  induction l with
  | nil => rfl
  | cons a t ih =>
      cases t with
      | nil => rfl
      | cons b t2 =>
          obtain ⟨c, m, hc⟩ : ∃ c m, (b :: t2).reverse = c :: m := by
            cases h : (b :: t2).reverse with
            | nil => exact absurd (congrArg List.length h) (by simp)
            | cons c m => exact ⟨c, m, rfl⟩
          have hrev : (a :: b :: t2).reverse = (c :: m) ++ [a] := by
            rw [← hc]
            rw [List.reverse_cons (a := a)]
          have hlast : m.getLastD c = b := by
            have h2 : ((b :: t2).reverse).getLast? = some b := by
              rw [List.getLast?_reverse]
              rfl
            rw [hc, getLast?_cons_getLastD] at h2
            exact Option.some.inj h2
          rw [hrev, walkEdges_concat c a m, hlast, ← hc, ih,
            walkEdges_cons_cons]
          rw [List.map_cons, List.reverse_cons]
          rfl

theorem fs_walk_reverse (l : List Int) :
    ((walkEdges l.reverse).map fsEdge).Perm ((walkEdges l).map fsEdge) := by
  rw [walkEdges_reverse, List.map_reverse]
  refine (List.reverse_perm _).trans ?_
  rw [List.map_map]
  have hmap : (walkEdges l).map (fsEdge ∘ Prod.swap) = (walkEdges l).map fsEdge :=
    List.map_congr_left fun e _ => by
      obtain ⟨a, b⟩ := e
      show fsEdge (b, a) = fsEdge (a, b)
      exact (fsEdge_comm a b).symm
  rw [hmap]

theorem edges_len_of_perm {edges : List Edge} {l : List Int}
    (hperm : (edges.map fsEdge).Perm ((walkEdges l).map fsEdge)) :
    edges.length = l.length - 1 := by
  have h1 := hperm.length_eq
  rw [List.length_map, List.length_map, walkEdges_length] at h1
  exact h1

/-- After validation and the first oriented edge, the chain loop consumes
a duplicate-free residual walk and produces exactly the walk's oriented
edges. -/
theorem after_first {edges : List Edge} {sv? : Option Int} {sv x : Int}
    {ws : List Int}
    (hok : get_valid_starting_vertex edges sv? = .ok sv)
    (hfe : get_first_edge edges sv = some (sv, x))
    (hfs : fsEdge (sv, x) ∈ edges.map fsEdge)
    (hnd : (x :: ws).Nodup)
    (hrem : (removeFirst (fsEdge (sv, x)) (edges.map fsEdge)).Perm
      ((walkEdges (x :: ws)).map fsEdge))
    (hlen : edges.length - 1 = ws.length) :
    get_ordered_edges edges sv? = .ok
      ((walkEdges (sv :: x :: ws)).map (fun e => orientTup e.1 e.2)) := by
  have hloop := chainLoop_walk ws x [[some sv, some x]]
    (removeFirst (fsEdge (sv, x)) (edges.map fsEdge)) hnd hrem rfl
  simp only [get_ordered_edges, hok, hfe, listRemove_ok hfs, hlen, hloop]
  rw [walkEdges_cons_cons]
  rfl



theorem headD_append {y : List Int} (z : List Int) (d : Int) (hy : y ≠ []) :
    (y ++ z).headD d = y.headD d := by
  cases y with
  | nil => exact absurd rfl hy
  | cons a t => rfl

theorem getLast_cons_eq_getLastD (a : Int) (l : List Int) :
    (a :: l).getLast (by simp) = l.getLastD a := by
  have h1 := List.getLast?_eq_getLast (a :: l) (by simp)
  rw [getLast?_cons_getLastD] at h1
  exact (Option.some.inj h1).symm

theorem getLastD_mem_cons (a : Int) (l : List Int) :
    l.getLastD a ∈ a :: l := by
  rw [← getLast_cons_eq_getLastD]
  exact List.getLast_mem _

theorem fsEdge_eq_pair {a x w : Int} (hne : a ≠ w)
    (h : fsEdge (a, x) = fsEdge (a, w)) : x = w := by
  have hw : w ∈ fsEdge (a, x) := by
    rw [h]
    exact mem_fsEdge.2 (Or.inr rfl)
  rcases mem_fsEdge.1 hw with h1 | h1
  · exact absurd h1.symm hne
  · exact h1.symm

theorem cycle_rot_step (a b : Int) (t : List Int) :
    ((walkEdges (a :: b :: (t ++ [a]))).map fsEdge).Perm
      ((walkEdges ((b :: (t ++ [a])) ++ [b])).map fsEdge) := by
  rw [walkEdges_cons_cons, walkEdges_concat b b (t ++ [a])]
  have hgl : (t ++ [a]).getLastD b = a := by
    rw [List.getLastD_eq_getLast?, List.getLast?_concat]
    rfl
  rw [hgl, List.map_cons, List.map_append]
  exact (List.perm_append_singleton _ _).symm

theorem cycle_shift : ∀ (p y : List Int), y ≠ [] →
    ((walkEdges ((p ++ y) ++ [(p ++ y).headD 0])).map fsEdge).Perm
      ((walkEdges ((y ++ p) ++ [y.headD 0])).map fsEdge) := by
  intro p
  induction p with
  | nil =>
      intro y hy
      simp only [List.nil_append, List.append_nil]
      exact List.Perm.refl _
  | cons a p2 ih =>
      intro y hy
      obtain ⟨b, t, hbt⟩ : ∃ b t, p2 ++ y = b :: t := by
        cases h : p2 ++ y with
        | nil =>
            exfalso
            rcases List.append_eq_nil.1 h with ⟨-, h2⟩
            exact hy h2
        | cons b t => exact ⟨b, t, rfl⟩
      have hL : ((a :: p2) ++ y) ++ [((a :: p2) ++ y).headD 0] =
          a :: b :: (t ++ [a]) := by
        rw [show (a :: p2) ++ y = a :: (p2 ++ y) from rfl, hbt]
        rfl
      have hstep := cycle_rot_step a b t
      have hmid : (b :: (t ++ [a])) ++ [b] =
          (p2 ++ (y ++ [a])) ++ [(p2 ++ (y ++ [a])).headD 0] := by
        have h1 : p2 ++ (y ++ [a]) = b :: (t ++ [a]) := by
          rw [← List.append_assoc, hbt]
          rfl
        rw [h1]
        rfl
      have hih := ih (y ++ [a]) (by simp)
      rw [hmid] at hstep
      have hfin : ((y ++ [a]) ++ p2) ++ [(y ++ [a]).headD 0] =
          (y ++ (a :: p2)) ++ [y.headD 0] := by
        rw [headD_append [a] 0 hy]
        simp [List.append_assoc]
      rw [hfin] at hih
      rw [hL]
      exact hstep.trans hih

theorem cycle_rotate {v0 sv : Int} {vs : List Int}
    (hnd : (v0 :: vs).Nodup) (hmem : sv ∈ v0 :: vs) :
    ∃ us, (sv :: us).Nodup ∧
      ((walkEdges ((v0 :: vs) ++ [v0])).map fsEdge).Perm
        ((walkEdges ((sv :: us) ++ [sv])).map fsEdge) := by
  obtain ⟨p, q, hpq⟩ := List.append_of_mem hmem
  refine ⟨q ++ p, ?_, ?_⟩
  · have h1 : (v0 :: vs).Perm (sv :: (p ++ q)) := by
      rw [hpq]
      exact List.perm_middle
    have h2 : (sv :: (q ++ p)).Perm (sv :: (p ++ q)) :=
      (List.perm_append_comm).cons sv
    exact (h2.trans h1.symm).nodup_iff.2 hnd
  · have hshift := cycle_shift p (sv :: q) (by simp)
    have hhd : (p ++ sv :: q).headD 0 = v0 := by
      rw [← hpq]
      rfl
    rw [hhd] at hshift
    rw [← hpq] at hshift
    have hformR : ((sv :: q) ++ p) ++ [(sv :: q).headD 0] =
        (sv :: (q ++ p)) ++ [sv] := rfl
    rw [hformR] at hshift
    exact hshift

theorem walkEdges_closed_last (sv : Int) (us : List Int) :
    (walkEdges ((sv :: us) ++ [sv])).getLast? = some (us.getLastD sv, sv) := by
  rw [walkEdges_concat sv sv us]
  exact List.getLast?_concat _

theorem cycle_first_x {sv x u1 : Int} {us2 : List Int}
    (hnd : (sv :: u1 :: us2).Nodup)
    (hfs : fsEdge (sv, x) ∈ (walkEdges ((sv :: u1 :: us2) ++ [sv])).map fsEdge) :
    x = u1 ∨ x = us2.getLastD u1 := by
  have hsvu1 : sv ≠ u1 := by
    intro h
    rw [h] at hnd
    exact (List.nodup_cons.1 hnd).1 (List.mem_cons_self _ _)
  have hshape : (sv :: u1 :: us2) ++ [sv] = sv :: ((u1 :: us2) ++ [sv]) := rfl
  rw [hshape, show walkEdges (sv :: ((u1 :: us2) ++ [sv])) =
      (sv, u1) :: walkEdges ((u1 :: us2) ++ [sv]) from rfl,
    walkEdges_concat u1 sv us2] at hfs
  rw [List.map_cons, List.map_append] at hfs
  rcases List.mem_cons.1 hfs with h1 | h1
  · exact Or.inl (fsEdge_eq_pair hsvu1 h1)
  · rcases List.mem_append.1 h1 with h2 | h2
    · exfalso
      obtain ⟨⟨px, py⟩, hpq, he⟩ := List.mem_map.1 h2
      have hsv : sv ∈ fsEdge (px, py) := by
        rw [he]
        exact mem_fsEdge.2 (Or.inl rfl)
      have hwm := walk_edge_mem hpq
      rcases mem_fsEdge.1 hsv with h3 | h3
      · have : px ∈ u1 :: us2 := (List.dropLast_sublist _).mem hwm.1
        rw [← h3] at this
        exact (List.nodup_cons.1 hnd).1 this
      · have : py ∈ u1 :: us2 := by
          have h4 := hwm.2
          exact List.mem_cons_of_mem u1 (by simpa using h4)
        rw [← h3] at this
        exact (List.nodup_cons.1 hnd).1 this
    · simp only [List.map_cons, List.map_nil, List.mem_singleton] at h2
      have hg : us2.getLastD u1 ∈ u1 :: us2 := getLastD_mem_cons u1 us2
      have hsvg : sv ≠ us2.getLastD u1 := by
        intro h
        rw [← h] at hg
        exact (List.nodup_cons.1 hnd).1 hg
      rw [fsEdge_comm (us2.getLastD u1) sv] at h2
      exact Or.inr (fsEdge_eq_pair hsvg h2)

theorem cycle_assemble {edges : List Edge} {sv? : Option Int} {sv u1 : Int}
    {us2 : List Int}
    (hok : get_valid_starting_vertex edges sv? = .ok sv)
    (hfe : get_first_edge edges sv = some (sv, u1))
    (hnd : (sv :: u1 :: us2).Nodup)
    (hperm : (edges.map fsEdge).Perm
      ((walkEdges ((sv :: u1 :: us2) ++ [sv])).map fsEdge)) :
    get_ordered_edges edges sv? = .ok
      ((walkEdges ((sv :: u1 :: us2) ++ [sv])).map
        (fun e => orientTup e.1 e.2)) := by
  have hshape : (sv :: u1 :: us2) ++ [sv] = sv :: u1 :: (us2 ++ [sv]) := rfl
  rw [hshape] at hperm ⊢
  have hfs : fsEdge (sv, u1) ∈ edges.map fsEdge := by
    rw [hperm.mem_iff, walkEdges_cons_cons, List.map_cons]
    exact List.mem_cons_self _ _
  have hnd2 : (u1 :: (us2 ++ [sv])).Nodup := by
    have hp : ((u1 :: us2) ++ [sv]).Perm (sv :: u1 :: us2) :=
      List.perm_append_singleton _ _
    exact hp.nodup_iff.2 hnd
  have hrem : (removeFirst (fsEdge (sv, u1)) (edges.map fsEdge)).Perm
      ((walkEdges (u1 :: (us2 ++ [sv]))).map fsEdge) := by
    apply removeFirst_perm
    rw [walkEdges_cons_cons, List.map_cons] at hperm
    exact hperm
  have hlen : edges.length - 1 = (us2 ++ [sv]).length := by
    have h1 := edges_len_of_perm hperm
    simp only [List.length_cons, List.length_append, List.length_singleton] at h1 ⊢
    omega
  exact after_first hok hfe hfs hnd2 hrem hlen



theorem fsEdge_eq_singleton {a b v : Int} (h : fsEdge (a, b) = [v]) :
    a = v ∧ b = v := by
  rw [fsEdge_eq] at h
  by_cases hab : a = b
  · rw [if_pos hab] at h
    have ha : a = v := by
      have := congrArg (fun l => l.headD 0) h
      simpa using this
    exact ⟨ha, hab ▸ ha⟩
  · rw [if_neg hab] at h
    by_cases hle : a ≤ b
    · rw [if_pos hle] at h
      exact absurd (congrArg List.length h) (by simp)
    · rw [if_neg hle] at h
      exact absurd (congrArg List.length h) (by simp)

theorem not_path_and_cycle {edges : List Edge} (hp : IsSimplePath edges)
    (hc : IsSimpleCycle edges) : False := by
  obtain ⟨v0, vs, hnd, hne, hpermP⟩ := hp
  obtain ⟨w0, ws, hndC, hpermC⟩ := hc
  have h1 : (unlist edges).count v0 = 1 := by
    rw [count_unlist_eq_walkSum hpermP]
    exact (walkSum_path_one_iff v0 vs hnd hne v0).2 (Or.inl rfl)
  have h2 := count_cycle hndC hpermC v0
  by_cases hm : v0 ∈ w0 :: ws
  · rw [if_pos hm] at h2
    omega
  · rw [if_neg hm] at h2
    omega

theorem closed_walk_reverse_perm (sv : Int) (us : List Int) :
    ((walkEdges ((sv :: us) ++ [sv])).map fsEdge).Perm
      ((walkEdges ((sv :: us.reverse) ++ [sv])).map fsEdge) := by
  have h1 := fs_walk_reverse ((sv :: us) ++ [sv])
  have h2 : ((sv :: us) ++ [sv]).reverse = (sv :: us.reverse) ++ [sv] := by
    simp
  rw [h2] at h1
  exact h1.symm

/-- Conclusion bundle for a cycle input once the traversal direction is
fixed: the program returns the oriented closed walk, which uses each edge
once, chains, and closes back to the start. -/
theorem cycle_conclusion {edges : List Edge} {sv? : Option Int} {sv u1 : Int}
    {us2 : List Int}
    (hok : get_valid_starting_vertex edges sv? = .ok sv)
    (hfe : get_first_edge edges sv = some (sv, u1))
    (hnd : (sv :: u1 :: us2).Nodup)
    (hperm : (edges.map fsEdge).Perm
      ((walkEdges ((sv :: u1 :: us2) ++ [sv])).map fsEdge)) :
    ∃ ol : List (Int × Int),
      get_ordered_edges edges sv? = .ok (ol.map (fun e => orientTup e.1 e.2)) ∧
      ol.length = edges.length ∧
      (ol.map fsEdge).Perm (edges.map fsEdge) ∧
      List.Chain' (fun a b : Int × Int => a.2 = b.1) ol ∧
      (∀ h : ol ≠ [], (ol.getLast h).2 = (ol.head h).1) := by
  refine ⟨walkEdges ((sv :: u1 :: us2) ++ [sv]),
    cycle_assemble hok hfe hnd hperm, ?_, hperm.symm, walkEdges_chain _, ?_⟩
  · have h1 := edges_len_of_perm hperm
    rw [walkEdges_length]
    simp only [List.length_cons, List.length_append, List.length_singleton] at h1 ⊢
    omega
  · intro hne'
    have h3 : (walkEdges ((sv :: u1 :: us2) ++ [sv])).getLast hne' =
        ((u1 :: us2).getLastD sv, sv) := by
      have hq := List.getLast?_eq_getLast
        (walkEdges ((sv :: u1 :: us2) ++ [sv])) hne'
      rw [walkEdges_closed_last sv (u1 :: us2)] at hq
      exact (Option.some.inj hq).symm
    have h4 : (walkEdges ((sv :: u1 :: us2) ++ [sv])).head hne' = (sv, u1) := by
      have hq := List.head?_eq_head (l := walkEdges ((sv :: u1 :: us2) ++ [sv]))
        hne'
      have hq2 : (walkEdges ((sv :: u1 :: us2) ++ [sv])).head? = some (sv, u1) :=
        rfl
      rw [hq2] at hq
      exact (Option.some.inj hq).symm
    rw [h3, h4]



/-- C1: for every input edge list that forms a valid simple path or simple
cycle and every admissible starting-vertex choice (absent, or provided and
accepted by the validator), `get_ordered_edges` returns a sequence of
exactly `n` oriented edges whose underlying unordered pairs are exactly the
input multiset of edges, each input edge used exactly once, with
`result[i].to = result[i+1].from` for consecutive elements; for a cycle
additionally `result[n-1].to = result[0].from`. -/
theorem get_ordered_edges_valid (edges : List Edge) (sv? : Option Int)
    (hvalid : IsSimplePath edges ∨ IsSimpleCycle edges)
    (hadm : sv? = none ∨ ∃ sv0, get_valid_starting_vertex edges sv? = .ok sv0) :
    ∃ ol : List (Int × Int),
      get_ordered_edges edges sv? = .ok (ol.map (fun e => orientTup e.1 e.2)) ∧
      ol.length = edges.length ∧
      (ol.map fsEdge).Perm (edges.map fsEdge) ∧
      List.Chain' (fun a b : Int × Int => a.2 = b.1) ol ∧
      (IsSimpleCycle edges → ∀ h : ol ≠ [], (ol.getLast h).2 = (ol.head h).1) := by
  rcases hvalid with hpath | hcycle
  · obtain ⟨v0, vs, hnd, hne, hperm⟩ := hpath
    have hsv : ∃ sv, get_valid_starting_vertex edges sv? = .ok sv ∧
        (unlist edges).count sv = 1 := by
      cases sv? with
      | none => exact valid_none_of_path hnd hne hperm
      | some s =>
          rcases hadm with h | ⟨sv0, hok⟩
          · exact absurd h (by simp)
          · obtain ⟨hveq, hmem, hends⟩ := valid_some_char hok
            refine ⟨sv0, hok, ?_⟩
            have hlen2 := endsList_path_length hnd hne hperm
            have hin : s ∈ endsList edges := hends (by omega)
            rw [hveq]
            exact mem_endsList.1 hin
    obtain ⟨sv, hok, hcount⟩ := hsv
    have hwalk : ∃ ws, (sv :: ws).Nodup ∧ ws ≠ [] ∧
        (edges.map fsEdge).Perm ((walkEdges (sv :: ws)).map fsEdge) := by
      have h1 : walkSum sv (v0 :: vs) = 1 := by
        rw [← count_unlist_eq_walkSum hperm]
        exact hcount
      rcases (walkSum_path_one_iff v0 vs hnd hne sv).1 h1 with h2 | h2
      · refine ⟨vs, ?_, hne, ?_⟩
        · rw [h2]; exact hnd
        · rw [h2]; exact hperm
      · have hsplit : v0 :: vs = (v0 :: vs.dropLast) ++ [vs.getLast hne] := by
          conv_lhs => rw [← List.dropLast_append_getLast hne]
          rfl
        have hrev : (v0 :: vs).reverse = sv :: (v0 :: vs.dropLast).reverse := by
          rw [hsplit, List.reverse_append]
          rw [← h2]
          rfl
        refine ⟨(v0 :: vs.dropLast).reverse, ?_, by simp, ?_⟩
        · rw [← hrev]
          exact List.nodup_reverse.2 hnd
        · refine hperm.trans ?_
          have h3 := fs_walk_reverse (v0 :: vs)
          rw [hrev] at h3
          exact h3.symm
    obtain ⟨ws, hnd2, hne2, hperm2⟩ := hwalk
    obtain ⟨w1, ws2, rfl⟩ : ∃ w1 ws2, ws = w1 :: ws2 := by
      cases ws with
      | nil => exact absurd rfl hne2
      | cons w1 ws2 => exact ⟨w1, ws2, rfl⟩
    have hsvmem : sv ∈ unlist edges := List.count_pos_iff.1 (by omega)
    obtain ⟨x, hfe, hfs⟩ := get_first_edge_mem hsvmem
    have hsvw1 : sv ≠ w1 := by
      intro h
      rw [h] at hnd2
      exact (List.nodup_cons.1 hnd2).1 (List.mem_cons_self _ _)
    have hxw1 : x = w1 := by
      have hfs2 : fsEdge (sv, x) ∈ (walkEdges (sv :: w1 :: ws2)).map fsEdge :=
        hperm2.mem_iff.1 hfs
      have h2 := walk_head_only hnd2 hfs2 (mem_fsEdge.2 (Or.inl rfl))
      exact fsEdge_eq_pair hsvw1 h2
    rw [hxw1] at hfe hfs
    have hrem : (removeFirst (fsEdge (sv, w1)) (edges.map fsEdge)).Perm
        ((walkEdges (w1 :: ws2)).map fsEdge) := by
      apply removeFirst_perm
      rw [walkEdges_cons_cons, List.map_cons] at hperm2
      exact hperm2
    have hlentot : edges.length = ws2.length + 1 := by
      have h1 := edges_len_of_perm hperm2
      simp only [List.length_cons] at h1
      omega
    have hlen : edges.length - 1 = ws2.length := by omega
    rw [walkEdges_cons_cons, List.map_cons] at hperm2
    have hmain := after_first hok hfe hfs hnd2.of_cons hrem hlen
    refine ⟨walkEdges (sv :: w1 :: ws2), hmain, ?_, ?_, walkEdges_chain _, ?_⟩
    · rw [walkEdges_length]
      simp [hlentot]
    · rw [walkEdges_cons_cons, List.map_cons]
      exact hperm2.symm
    · intro hcyc
      exact absurd hcyc (fun h =>
        not_path_and_cycle ⟨v0, vs, hnd, hne, hperm⟩ h)
  · obtain ⟨v0, vs, hnd, hperm⟩ := hcycle
    have hsv : ∃ sv, get_valid_starting_vertex edges sv? = .ok sv ∧
        (unlist edges).count sv = 2 := by
      cases sv? with
      | none => exact valid_none_of_cycle hnd hperm
      | some s =>
          rcases hadm with h | ⟨sv0, hok⟩
          · exact absurd h (by simp)
          · obtain ⟨hveq, hmem, -⟩ := valid_some_char hok
            refine ⟨sv0, hok, ?_⟩
            rw [hveq]
            have hpos : 0 < (unlist edges).count s := List.count_pos_iff.2 hmem
            have hc := count_cycle hnd hperm s
            by_cases hm : s ∈ v0 :: vs
            · rw [hc, if_pos hm]
            · rw [hc, if_neg hm] at hpos
              omega
    obtain ⟨sv, hok, hcount2⟩ := hsv
    have hsvcyc : sv ∈ v0 :: vs := by
      have hc := count_cycle hnd hperm sv
      by_contra hm
      rw [if_neg hm] at hc
      omega
    obtain ⟨us, hndus, hpermrot⟩ := cycle_rotate hnd hsvcyc
    have hperm3 : (edges.map fsEdge).Perm
        ((walkEdges ((sv :: us) ++ [sv])).map fsEdge) := hperm.trans hpermrot
    have hsvmem : sv ∈ unlist edges := List.count_pos_iff.1 (by omega)
    obtain ⟨x, hfe, hfs⟩ := get_first_edge_mem hsvmem
    cases us with
    | nil =>
        have hsingle : (edges.map fsEdge).Perm [[sv]] := by
          have hw : ((walkEdges (([sv] : List Int) ++ [sv])).map fsEdge) =
              [[sv]] := by
            show [fsEdge (sv, sv)] = [[sv]]
            rw [fsEdge_eq, if_pos rfl]
          rw [← hw]
          exact hperm3
        have hmapeq : edges.map fsEdge = [[sv]] := List.perm_singleton.1 hsingle
        obtain ⟨a, b, hedges⟩ : ∃ a b, edges = [(a, b)] := by
          cases edges with
          | nil => exact absurd hmapeq (by simp)
          | cons e rest =>
              obtain ⟨a, b⟩ := e
              cases rest with
              | nil => exact ⟨a, b, rfl⟩
              | cons f rest2 => exact absurd hmapeq (by simp)
        have hab : a = sv ∧ b = sv := by
          apply fsEdge_eq_singleton
          rw [hedges] at hmapeq
          simpa using hmapeq
        have hedges2 : edges = [(sv, sv)] := by
          rw [hedges, hab.1, hab.2]
        subst hedges2
        have hxsv : x = sv := by
          have : get_first_edge [(sv, sv)] sv = some (sv, sv) := by
            simp [get_first_edge]
          rw [this] at hfe
          have := Option.some.inj hfe
          exact (congrArg Prod.snd this).symm
        rw [hxsv] at hfe hfs
        have hrem : (removeFirst (fsEdge (sv, sv))
            ([((sv : Int), (sv : Int))].map fsEdge)).Perm
            ((walkEdges ([sv] : List Int)).map fsEdge) := by
          simp [removeFirst, walkEdges]
        have hmain := after_first hok hfe hfs (by simp) hrem (by simp)
        refine ⟨[(sv, sv)], hmain, by simp, List.Perm.refl _, ?_, ?_⟩
        · exact List.chain'_singleton _
        · intro _ h
          rfl
    | cons u1 us2 =>
        have hx := cycle_first_x hndus (hperm3.mem_iff.1 hfs)
        rcases hx with hx | hx
        · rw [hx] at hfe
          obtain ⟨ol, h1, h2, h3, h4, h5⟩ :=
            cycle_conclusion hok hfe hndus hperm3
          exact ⟨ol, h1, h2, h3, h4, fun _ => h5⟩
        · have hgmem : us2.getLastD u1 ∈ u1 :: us2 := getLastD_mem_cons u1 us2
          have hrevshape : (u1 :: us2).reverse =
              us2.getLastD u1 :: ((u1 :: us2).dropLast).reverse := by
            conv_lhs => rw [← List.dropLast_append_getLast
              (l := u1 :: us2) (by simp)]
            rw [List.reverse_append, getLast_cons_eq_getLastD]
            rfl
          have hperm4 : (edges.map fsEdge).Perm
              ((walkEdges ((sv :: (u1 :: us2).reverse) ++ [sv])).map fsEdge) :=
            hperm3.trans (closed_walk_reverse_perm sv (u1 :: us2))
          have hndrev : (sv :: (u1 :: us2).reverse).Nodup := by
            have hp : (sv :: (u1 :: us2).reverse).Perm (sv :: u1 :: us2) :=
              (List.reverse_perm _).cons sv
            exact hp.nodup_iff.2 hndus
          rw [hrevshape] at hperm4 hndrev
          rw [hx] at hfe
          obtain ⟨ol, h1, h2, h3, h4, h5⟩ :=
            cycle_conclusion hok hfe hndrev hperm4
          exact ⟨ol, h1, h2, h3, h4, fun _ => h5⟩



theorem listRemove_length :
    ∀ {x : List Int} {l r : List (List Int)},
      listRemove x l = .ok r → r.length + 1 = l.length := by
  intro x l
  induction l with
  | nil => intro r h; simp [listRemove] at h
  | cons y ys ih =>
      intro r h
      by_cases hxy : y = x
      · rw [listRemove, if_pos hxy] at h
        have : r = ys := by
          injection h with h'
          exact h'.symm
        rw [this]
        rfl
      · rw [listRemove, if_neg hxy] at h
        cases hrec : listRemove x ys with
        | error e => rw [hrec] at h; simp [Except.map] at h
        | ok r2 =>
            rw [hrec] at h
            have hr : r = y :: r2 := by
              simp [Except.map] at h
              exact h.symm
            rw [hr]
            simp [ih hrec]

theorem map_some_ne_null (es : List Int) :
    es.map some ≠ ([none, none] : PyTup) := by
  cases es with
  | nil => simp
  | cons a t => simp

theorem chainLoop_mem_acc :
    ∀ (k : Nat) (acc : List PyTup) (rem : List (List Int))
      (res : List PyTup) (rem2 : List (List Int)),
      chainLoop k acc rem = .ok (res, rem2) → ∀ t ∈ acc, t ∈ res := by
  intro k
  induction k with
  | zero =>
      intro acc rem res rem2 h t ht
      simp only [chainLoop] at h
      have h1 : acc.reverse = res := congrArg Prod.fst (Except.ok.inj h)
      rw [← h1]
      simpa using ht
  | succ k ih =>
      intro acc rem res rem2 h t ht
      simp only [chainLoop] at h
      cases hidx : pyIndex (acc.headD []) 1 with
      | error e => simp only [hidx] at h; exact Except.noConfusion h
      | ok tail =>
          simp only [hidx] at h
          cases hfm : findMatch tail rem with
          | error e => simp only [hfm] at h; exact Except.noConfusion h
          | ok r =>
              simp only [hfm] at h
              cases r with
              | none =>
                  exact ih _ _ _ _ h t (List.mem_cons_of_mem _ ht)
              | some pr =>
                  obtain ⟨tup, es⟩ := pr
                  cases hlr : listRemove es rem with
                  | error e => simp only [hlr] at h; exact Except.noConfusion h
                  | ok rem3 =>
                      simp only [hlr] at h
                      exact ih _ _ _ _ h t (List.mem_cons_of_mem _ ht)

theorem findMatch_tup_form :
    ∀ {tail : Option Int} {rem : List (List Int)} {tup : PyTup}
      {es : List Int},
      findMatch tail rem = .ok (some (tup, es)) →
      tup = es.map some ∨ tup = es.reverse.map some := by
  intro tail rem
  induction rem with
  | nil => intro tup es h; simp [findMatch] at h
  | cons s rest ih =>
      intro tup es h
      rw [findMatch] at h
      cases h1 : s.head? with
      | none => rw [h1] at h; simp at h
      | some f0 =>
          cases h2 : s.getLast? with
          | none => rw [h1, h2] at h; simp at h
          | some r0 =>
              simp only [h1, h2] at h
              by_cases hc1 : some f0 = tail
              · rw [if_pos hc1] at h
                obtain ⟨h3, h4⟩ := Prod.mk.inj (Option.some.inj (Except.ok.inj h))
                rw [← h3, ← h4]
                exact Or.inl rfl
              · rw [if_neg hc1] at h
                by_cases hc2 : some r0 = tail
                · rw [if_pos hc2] at h
                  obtain ⟨h3, h4⟩ := Prod.mk.inj (Option.some.inj (Except.ok.inj h))
                  rw [← h3, ← h4]
                  exact Or.inr rfl
                · rw [if_neg hc2] at h
                  exact ih h

theorem chainLoop_consumption :
    ∀ (k : Nat) (acc : List PyTup) (rem : List (List Int))
      (res : List PyTup) (rem2 : List (List Int)),
      chainLoop k acc rem = .ok (res, rem2) →
      res.length = acc.length + k ∧
      rem.length ≤ rem2.length + k ∧
      (([none, none] : PyTup) ∉ acc → ([none, none] : PyTup) ∈ res →
        rem.length < rem2.length + k) := by
  intro k
  induction k with
  | zero =>
      intro acc rem res rem2 h
      simp only [chainLoop] at h
      have h1 : acc.reverse = res := congrArg Prod.fst (Except.ok.inj h)
      have h2 : rem = rem2 := congrArg Prod.snd (Except.ok.inj h)
      refine ⟨by rw [← h1]; simp, by rw [h2]; omega, ?_⟩
      intro hnull hmem
      exfalso
      rw [← h1] at hmem
      exact hnull (by simpa using hmem)
  | succ k ih =>
      intro acc rem res rem2 h
      simp only [chainLoop] at h
      cases hidx : pyIndex (acc.headD []) 1 with
      | error e => simp only [hidx] at h; exact Except.noConfusion h
      | ok tail =>
          simp only [hidx] at h
          cases hfm : findMatch tail rem with
          | error e => simp only [hfm] at h; exact Except.noConfusion h
          | ok r =>
              simp only [hfm] at h
              cases r with
              | none =>
                  obtain ⟨hl, hr, -⟩ := ih _ _ _ _ h
                  refine ⟨by rw [hl]; simp; omega, by omega, fun _ _ => ?_⟩
                  omega
              | some pr =>
                  obtain ⟨tup, es⟩ := pr
                  cases hlr : listRemove es rem with
                  | error e => simp only [hlr] at h; exact Except.noConfusion h
                  | ok rem3 =>
                      simp only [hlr] at h
                      obtain ⟨hl, hr, hn⟩ := ih _ _ _ _ h
                      have hlen3 : rem3.length + 1 = rem.length :=
                        listRemove_length hlr
                      have htup : tup ≠ ([none, none] : PyTup) := by
                        rcases findMatch_tup_form hfm with h1 | h1
                        · rw [h1]; exact map_some_ne_null es
                        · rw [h1]; exact map_some_ne_null es.reverse
                      refine ⟨by rw [hl]; simp; omega, by omega, ?_⟩
                      intro hnull hmem
                      have hstrict : rem3.length < rem2.length + k := by
                        refine hn ?_ hmem
                        intro hc
                        rcases List.mem_cons.1 hc with hc1 | hc1
                        · exact htup hc1.symm
                        · exact hnull hc1
                      omega



theorem get_ordered_edges_err {edges : List Edge} {sv? : Option Int} {e : Err}
    (h : get_valid_starting_vertex edges sv? = .error e) :
    get_ordered_edges edges sv? = .error e := by
  unfold get_ordered_edges
  rw [h]

theorem valid_empty (sv? : Option Int) (v : Int) :
    get_valid_starting_vertex [] sv? ≠ .ok v := by
  cases sv? with
  | none =>
      intro h
      have hcomp : get_valid_starting_vertex [] none = .error .indexError := by
        decide
      rw [hcomp] at h
      exact Except.noConfusion h
  | some s =>
      intro h
      simp only [get_valid_starting_vertex] at h
      rw [if_neg (by simp [unlist])] at h
      exact Except.noConfusion h

theorem cycles_full_ends_nil {edges : List Edge}
    (hB : (cyclesList edges).length = (vertexCounts edges).length) :
    endsList edges = [] := by
  have hlen : (cyclesList edges).length = (pySetList (unlist edges)).length := by
    rw [hB, vertexCounts, List.length_map]
  have hsub : (cyclesList edges).Sublist (pySetList (unlist edges)) := by
    rw [cyclesList_eq]
    exact List.filter_sublist _
  have heq : cyclesList edges = pySetList (unlist edges) :=
    hsub.eq_of_length hlen
  have hall : ∀ v ∈ pySetList (unlist edges), (unlist edges).count v = 2 := by
    intro v hv
    have hin : v ∈ cyclesList edges := by rw [heq]; exact hv
    exact mem_cyclesList.1 hin
  refine (endsList_nil_iff edges).2 fun v => ?_
  by_cases hv : v ∈ unlist edges
  · have := hall v (mem_pySetList.2 hv)
    omega
  · have := List.count_eq_zero.2 hv
    omega

/-- C1 witness: the concrete path `[(1,2),(2,3)]` with no starting vertex
satisfies the hypotheses of `get_ordered_edges_valid` and hence its
conclusion. -/
theorem get_ordered_edges_valid_witness :
    ∃ ol : List (Int × Int),
      get_ordered_edges [(1,2),(2,3)] none =
        .ok (ol.map (fun e => orientTup e.1 e.2)) ∧
      ol.length = ([(1,2),(2,3)] : List Edge).length ∧
      (ol.map fsEdge).Perm (([(1,2),(2,3)] : List Edge).map fsEdge) ∧
      List.Chain' (fun a b : Int × Int => a.2 = b.1) ol ∧
      (IsSimpleCycle [(1,2),(2,3)] → ∀ h : ol ≠ [],
        (ol.getLast h).2 = (ol.head h).1) :=
  get_ordered_edges_valid [(1,2),(2,3)] none
    (Or.inl ⟨1, [2, 3], by decide, by decide, by decide⟩) (Or.inl rfl)

/-- C2 counterexample: for the fork input and the starting-vertex choice 99,
which occurs in no edge, the program fails with the membership assertion
(`VertexNotFoundError`), not with the fork error, so the claim's "for every
starting-vertex choice" fails as stated. -/
theorem c2_fork_counterexample :
    get_ordered_edges [(1,2),(5,2),(1,0),(5,1)] (some 99) =
      .error (.vertexNotFound 99 [1,2,5,2,1,0,5,1]) ∧
    ∀ l, Err.vertexNotFound 99 [1,2,5,2,1,0,5,1] ≠ Err.forked l := by
  refine ⟨by decide, fun l h => Err.noConfusion h⟩

/-- C2 (amended): for every input edge list in which some vertex occurs more
than twice among the edge endpoints, and for every starting-vertex choice
that is absent or occurs among the endpoints, `get_ordered_edges` fails with
the fork error, whose payload lists exactly the vertices of degree
greater than 2. -/
theorem c2_fork_all_starts (edges : List Edge) (sv? : Option Int)
    (hfork : ∃ v, 2 < (unlist edges).count v)
    (hadm : sv? = none ∨ ∃ sv, sv? = some sv ∧ sv ∈ unlist edges) :
    get_ordered_edges edges sv? = .error (.forked (forksList edges)) ∧
    forksList edges ≠ [] ∧
    (∀ v, v ∈ forksList edges ↔ 2 < (unlist edges).count v) := by
  have hne : forksList edges ≠ [] := by
    obtain ⟨v, hv⟩ := hfork
    intro h
    have hm : v ∈ forksList edges := mem_forksList.2 hv
    rw [h] at hm
    simp at hm
  refine ⟨?_, hne, fun v => mem_forksList⟩
  apply get_ordered_edges_err
  rcases hadm with rfl | ⟨sv, rfl, hmem⟩
  · simp only [get_valid_starting_vertex]
    rw [if_neg hne]
  · simp only [get_valid_starting_vertex]
    rw [if_pos hmem, if_neg hne]

/-- C2 witness: the concrete fork input `[(1,2),(5,2),(1,0),(5,1)]`, with no
starting vertex, fails with the fork error identifying vertex 1. -/
theorem c2_fork_witness :
    get_ordered_edges [(1,2),(5,2),(1,0),(5,1)] none =
      .error (.forked [1]) := by
  have h := c2_fork_all_starts [(1,2),(5,2),(1,0),(5,1)] none
    ⟨1, by decide⟩ (Or.inl rfl)
  have h2 : forksList [(1,2),(5,2),(1,0),(5,1)] = [1] := by decide
  rw [h2] at h
  exact h.1

/-- C3: for every input whose endpoint degrees are all at most 2 and every
starting-vertex choice that is absent or present among the endpoints,
`get_valid_starting_vertex` fails with the ambiguous-topology error exactly
when the path condition (two degree-1 vertices) XOR the cycle condition
(every distinct vertex doubled) fails; and the code's disjunction is
equivalent to that XOR because the two conditions cannot hold together. -/
theorem c3_ambiguous_xor (edges : List Edge) (sv? : Option Int)
    (hdeg : ∀ v, (unlist edges).count v ≤ 2)
    (hadm : sv? = none ∨ ∃ sv, sv? = some sv ∧ sv ∈ unlist edges) :
    (get_valid_starting_vertex edges sv? = .error (.ambiguous (endsList edges)
        (cyclesList edges).length (vertexCounts edges).length) ↔
      ¬ Xor' ((endsList edges).length = 2)
        ((cyclesList edges).length = (vertexCounts edges).length)) ∧
    (((endsList edges).length = 2 ∨
        (cyclesList edges).length = (vertexCounts edges).length) ↔
      Xor' ((endsList edges).length = 2)
        ((cyclesList edges).length = (vertexCounts edges).length)) := by
  have hforks : forksList edges = [] := (forksList_nil_iff edges).2 hdeg
  have hnotboth : ¬ ((endsList edges).length = 2 ∧
      (cyclesList edges).length = (vertexCounts edges).length) := by
    rintro ⟨hA, hB⟩
    rw [cycles_full_ends_nil hB] at hA
    simp at hA
  have hor : (((endsList edges).length = 2 ∨
      (cyclesList edges).length = (vertexCounts edges).length) ↔
      Xor' ((endsList edges).length = 2)
        ((cyclesList edges).length = (vertexCounts edges).length)) := by
    constructor
    · intro h
      rcases h with hA | hB
      · exact Or.inl ⟨hA, fun hB => hnotboth ⟨hA, hB⟩⟩
      · exact Or.inr ⟨hB, fun hA => hnotboth ⟨hA, hB⟩⟩
    · rintro (⟨hA, -⟩ | ⟨hB, -⟩)
      · exact Or.inl hA
      · exact Or.inr hB
  refine ⟨?_, hor⟩
  by_cases hC : (endsList edges).length = 2 ∨
      (cyclesList edges).length = (vertexCounts edges).length
  · have hne2 : get_valid_starting_vertex edges sv? ≠
        .error (.ambiguous (endsList edges) (cyclesList edges).length
          (vertexCounts edges).length) := by
      intro hcontra
      rcases hadm with rfl | ⟨sv, rfl, hmem⟩
      · simp only [get_valid_starting_vertex] at hcontra
        rw [if_pos hforks, if_pos hC] at hcontra
        split at hcontra
        · exact Except.noConfusion hcontra
        · split at hcontra
          · exact Except.noConfusion hcontra
          · exact Err.noConfusion (Except.error.inj hcontra)
      · simp only [get_valid_starting_vertex] at hcontra
        rw [if_pos hmem, if_pos hforks, if_pos hC] at hcontra
        by_cases hE : 0 < (endsList edges).length
        · rw [if_pos hE] at hcontra
          by_cases hIn : sv ∈ endsList edges
          · rw [if_pos hIn] at hcontra
            exact Except.noConfusion hcontra
          · rw [if_neg hIn] at hcontra
            exact Err.noConfusion (Except.error.inj hcontra)
        · rw [if_neg hE] at hcontra
          exact Except.noConfusion hcontra
    exact ⟨fun h => absurd h hne2, fun hn => absurd (hor.1 hC) hn⟩
  · have heq : get_valid_starting_vertex edges sv? =
        .error (.ambiguous (endsList edges) (cyclesList edges).length
          (vertexCounts edges).length) := by
      rcases hadm with rfl | ⟨sv, rfl, hmem⟩
      · simp only [get_valid_starting_vertex]
        rw [if_pos hforks, if_neg hC]
      · simp only [get_valid_starting_vertex]
        rw [if_pos hmem, if_pos hforks, if_neg hC]
    exact ⟨fun _ hx => hC (hor.2 hx), fun _ => heq⟩

/-- C3 witness: two disjoint single edges have four degree-1 vertices, so
neither the path nor the cycle condition holds and validation fails with the
ambiguous-topology error. -/
theorem c3_ambiguous_witness :
    (get_valid_starting_vertex [(1,2),(3,4)] none =
      .error (.ambiguous (endsList [(1,2),(3,4)])
        (cyclesList [(1,2),(3,4)]).length
        (vertexCounts [(1,2),(3,4)]).length) ↔
      ¬ Xor' ((endsList [(1,2),(3,4)]).length = 2)
        ((cyclesList [(1,2),(3,4)]).length =
          (vertexCounts [(1,2),(3,4)]).length)) ∧
    (((endsList [(1,2),(3,4)]).length = 2 ∨
        (cyclesList [(1,2),(3,4)]).length =
          (vertexCounts [(1,2),(3,4)]).length) ↔
      Xor' ((endsList [(1,2),(3,4)]).length = 2)
        ((cyclesList [(1,2),(3,4)]).length =
          (vertexCounts [(1,2),(3,4)]).length)) :=
  c3_ambiguous_xor [(1,2),(3,4)] none
    (by
      intro v
      rw [show unlist [(1,2),(3,4)] = [1,2,3,4] from rfl]
      have h1 := List.nodup_iff_count_le_one.1
        (by decide : ([1,2,3,4] : List Int).Nodup) v
      omega)
    (Or.inl rfl)

/-- C4 counterexample: for edges `[(3,1),(3,0)]` with no starting vertex the
code resolves vertex 0 (the first degree-1 vertex in CPython's set-iteration
order over the distinct endpoints), while the first-appearance order the
claim describes predicts vertex 1. -/
theorem c4_resolution_counterexample :
    get_valid_starting_vertex [(3,1),(3,0)] none = .ok 0 ∧
    specFirstAppearanceEnd [(3,1),(3,0)] = some 1 ∧ (0 : Int) ≠ 1 := by
  decide

/-- C4 (amended): a provided, accepted starting vertex is returned
unchanged; with no starting vertex a path input resolves to `ends[0]`, the
first degree-1 vertex in the degree table, whose iteration order is
CPython's set-iteration order over the distinct endpoints (ascending
numeric value for small non-negative vertices), not first-appearance order;
a cycle input resolves to the first endpoint of the first edge. -/
theorem c4_resolution_policy (edges : List Edge) :
    (∀ s v, get_valid_starting_vertex edges (some s) = .ok v → v = s) ∧
    (∀ v, get_valid_starting_vertex edges none = .ok v →
      (endsList edges ≠ [] ∧ v = (endsList edges).headD 0) ∨
      (endsList edges = [] ∧ ∀ a b es, edges = (a, b) :: es → v = a)) := by
  refine ⟨fun s v h => (valid_some_char h).1, ?_⟩
  intro v h
  simp only [get_valid_starting_vertex] at h
  split_ifs at h with h1 h2
  cases hE : endsList edges with
  | cons e rest =>
      rw [hE] at h
      left
      refine ⟨by simp, ?_⟩
      have h3 := Except.ok.inj h
      simp [← h3]
  | nil =>
      rw [hE] at h
      right
      refine ⟨rfl, ?_⟩
      intro a b es hedges
      rw [hedges, unlist_cons] at h
      have h3 := Except.ok.inj h
      exact h3.symm

/-- C4 witness: on the counterexample input the amended policy correctly
predicts the resolved vertex `ends[0] = 0`. -/
theorem c4_resolution_witness :
    (endsList [(3,1),(3,0)] ≠ [] ∧
      (0 : Int) = (endsList [(3,1),(3,0)]).headD 0) ∨
    (endsList [(3,1),(3,0)] = [] ∧
      ∀ a b es, ([(3,1),(3,0)] : List Edge) = (a, b) :: es → (0 : Int) = a) :=
  (c4_resolution_policy [(3,1),(3,0)]).2 0 (by decide)

/-- C5 counterexample: on two disjoint 2-cycles, whose degree profile
validates, the chain builder does not stop at the first failed placement;
it null-pads the remaining slots and only the final assertion fails, whose
reported payload is the padded sorted list — which contains `(None, None)`
entries and not the unplaced edges. -/
theorem c5_reporting_counterexample :
    get_ordered_edges [(1,2),(2,1),(3,4),(4,3)] none =
      .error (.notAllSorted [[some 1, some 2], [some 2, some 1],
        [none, none], [none, none]]) ∧
    ([none, none] : PyTup) ∈ [[some 1, some 2], [some 2, some 1],
        ([none, none] : PyTup), [none, none]] := by
  refine ⟨by decide, by decide⟩

/-- C5 (amended): when the chain cannot be completed the function fails
with the final not-all-edges-sorted assertion, whose payload is the padded
`sorted_edges` list; and a successful return is never partial or
null-padded: it has exactly the input length and contains no `(None, None)`
entry. -/
theorem c5_no_partial_output :
    (get_ordered_edges [(1,2),(2,1),(3,4),(4,3)] none =
      .error (.notAllSorted [[some 1, some 2], [some 2, some 1],
        [none, none], [none, none]])) ∧
    (∀ (edges : List Edge) (sv? : Option Int) (res : List PyTup),
      get_ordered_edges edges sv? = .ok res →
      res.length = edges.length ∧ ([none, none] : PyTup) ∉ res) := by
  refine ⟨by decide, ?_⟩
  intro edges sv? res h
  unfold get_ordered_edges at h
  cases hv : get_valid_starting_vertex edges sv? with
  | error e => simp only [hv] at h; exact Except.noConfusion h
  | ok sv =>
      simp only [hv] at h
      cases hfe : get_first_edge edges sv with
      | none => simp only [hfe] at h; exact Except.noConfusion h
      | some fe =>
          simp only [hfe] at h
          cases hlr : listRemove (fsEdge fe) (edges.map fsEdge) with
          | error e => simp only [hlr] at h; exact Except.noConfusion h
          | ok rem1 =>
              simp only [hlr] at h
              cases hcl : chainLoop (edges.length - 1)
                  [[some fe.1, some fe.2]] rem1 with
              | error e => simp only [hcl] at h; exact Except.noConfusion h
              | ok pr =>
                  obtain ⟨res0, remF⟩ := pr
                  simp only [hcl] at h
                  by_cases hz : remF.length = 0
                  · rw [if_pos hz] at h
                    have hres : res0 = res := Except.ok.inj h
                    subst hres
                    obtain ⟨hlenr, hle, hnl⟩ :=
                      chainLoop_consumption _ _ _ _ _ hcl
                    have hrem1 : rem1.length + 1 = edges.length := by
                      have h2 := listRemove_length hlr
                      rw [List.length_map] at h2
                      exact h2
                    simp only [List.length_cons, List.length_nil] at hlenr
                    constructor
                    · omega
                    · intro hmem
                      have hnull0 : ([none, none] : PyTup) ∉
                          [[some fe.1, some fe.2]] := by simp
                      have hs := hnl hnull0 hmem
                      omega
                  · rw [if_neg hz] at h
                    exact Except.noConfusion h

/-- C5 witness: on a successful run (the explicit-start path example) the
returned sequence has the input length and no null padding. -/
theorem c5_no_partial_witness :
    ([[some 4, some 5], [some 5, some 2], [some 2, some 1],
        [some 1, some 0]] : List PyTup).length =
      ([(1,2),(5,2),(1,0),(5,4)] : List Edge).length ∧
    ([none, none] : PyTup) ∉ ([[some 4, some 5], [some 5, some 2],
        [some 2, some 1], [some 1, some 0]] : List PyTup) :=
  c5_no_partial_output.2 [(1,2),(5,2),(1,0),(5,4)] (some 4) _ (by decide)

/-- C6: for a path input (no forks, exactly two degree-1 end vertices) a
provided starting vertex occurring among the endpoints is accepted exactly
when it is one of the two end points, and rejected with the
invalid-start-vertex error otherwise; for a cycle input (no forks, no ends,
all distinct vertices doubled) any provided vertex among the endpoints is
returned unchanged. -/
theorem c6_start_validation (edges : List Edge) (sv : Int) :
    ((forksList edges = [] ∧ (endsList edges).length = 2 ∧
        sv ∈ unlist edges) →
      get_valid_starting_vertex edges (some sv) =
        (if sv ∈ endsList edges then .ok sv
         else .error (.invalidStart sv (endsList edges)))) ∧
    ((forksList edges = [] ∧ endsList edges = [] ∧
        (cyclesList edges).length = (vertexCounts edges).length ∧
        sv ∈ unlist edges) →
      get_valid_starting_vertex edges (some sv) = .ok sv) := by
  constructor
  · rintro ⟨hf, hlen, hmem⟩
    simp only [get_valid_starting_vertex]
    rw [if_pos hmem, if_pos hf, if_pos (Or.inl hlen), if_pos (by omega)]
  · rintro ⟨hf, hend, hcyc, hmem⟩
    simp only [get_valid_starting_vertex]
    rw [if_pos hmem, if_pos hf, if_pos (Or.inr hcyc),
      if_neg (by simp [hend])]

/-- C6 witness: on the path `[(1,2),(2,3)]` the interior vertex 2 is
rejected with the invalid-start-vertex error, and on the 2-cycle
`[(1,2),(2,1)]` the vertex 2 is accepted. -/
theorem c6_start_witness :
    get_valid_starting_vertex [(1,2),(2,3)] (some 2) =
      .error (.invalidStart 2 (endsList [(1,2),(2,3)])) ∧
    get_valid_starting_vertex [(1,2),(2,1)] (some 2) = .ok 2 := by
  constructor
  · have h := (c6_start_validation [(1,2),(2,3)] 2).1
      ⟨by decide, by decide, by decide⟩
    rw [if_neg (by decide)] at h
    exact h
  · exact (c6_start_validation [(1,2),(2,1)] 2).2
      ⟨by decide, by decide, by decide, by decide⟩

/-- C7: `get_first_edge` on a starting vertex contained in no edge returns
`None` silently — the function's final `assert True` is vacuous and no
error is raised, contradicting the claim's checked
`StartingVertexUnreachableError`. -/
theorem c7_first_edge_silent : get_first_edge [(1, 2)] 7 = none := by
  decide

/-- C8: the concrete path input with explicit starting vertex 4 yields
exactly `[(4,5),(5,2),(2,1),(1,0)]`. -/
theorem c8_path_explicit_start :
    get_ordered_edges [(1,2),(5,2),(1,0),(5,4)] (some 4) =
      .ok [[some 4, some 5], [some 5, some 2], [some 2, some 1],
        [some 1, some 0]] := by
  decide

/-- C9: the empty edge list passes the fork and path-XOR-cycle checks
vacuously, and resolution then indexes `vertices[0]` on the empty list, so
both the validator and `get_ordered_edges` terminate with the `IndexError`,
which is none of the specification's structured errors, rather than
returning an empty sequence. -/
theorem c9_empty_input :
    get_valid_starting_vertex [] none = .error .indexError ∧
    get_ordered_edges [] none = .error .indexError ∧
    forksList [] = [] ∧ endsList [] = [] ∧
    (cyclesList []).length = (vertexCounts []).length ∧
    (∀ f, Err.indexError ≠ .forked f) ∧
    (∀ en nc nv, Err.indexError ≠ .ambiguous en nc nv) ∧
    (∀ v vs, Err.indexError ≠ .vertexNotFound v vs) ∧
    (∀ v es, Err.indexError ≠ .invalidStart v es) ∧
    (∀ se, Err.indexError ≠ .notAllSorted se) := by
  refine ⟨by decide, by decide, by decide, by decide, by decide,
    fun f h => Err.noConfusion h, fun en nc nv h => Err.noConfusion h,
    fun v vs h => Err.noConfusion h, fun v es h => Err.noConfusion h,
    fun se h => Err.noConfusion h⟩

/-- C10: a single self-loop `[(v, v)]` passes topology validation (its
vertex counts as degree 2, the cycle condition) and `get_ordered_edges`
returns the loop itself without any error, for every vertex `v`. -/
theorem c10_self_loop (v : Int) :
    get_valid_starting_vertex [(v, v)] none = .ok v ∧
    get_ordered_edges [(v, v)] none = .ok [[some v, some v]] := by
  have hperm : (([(v, v)] : List Edge).map fsEdge).Perm
      ((walkEdges ((v :: ([] : List Int)) ++ [v])).map fsEdge) :=
    List.Perm.refl _
  have hok : get_valid_starting_vertex [(v, v)] none = .ok v := by
    obtain ⟨sv, hok, hc⟩ := valid_none_of_cycle (by simp) hperm
    have hsv : sv = v := by
      by_contra hne
      have : (unlist [(v, v)]).count sv = 0 := by
        refine List.count_eq_zero.2 ?_
        rw [unlist_cons]
        simp [hne, unlist]
      omega
    rw [hsv] at hok
    exact hok
  refine ⟨hok, ?_⟩
  have hfe : get_first_edge [(v, v)] v = some (v, v) := by
    simp [get_first_edge]
  have hfs : fsEdge (v, v) ∈ ([(v, v)] : List Edge).map fsEdge := by simp
  have hrem : (removeFirst (fsEdge (v, v))
      (([(v, v)] : List Edge).map fsEdge)).Perm
      ((walkEdges ([v] : List Int)).map fsEdge) := by
    simp [removeFirst, walkEdges]
  exact after_first hok hfe hfs (by simp) hrem (by simp)


